import Mathlib

/-! # claude-mux: worktree lifecycle manager

A shallow embedding of `internal/worktree/worktree.go` (the `Manager`
operations) together with the parts of the Go standard library it calls
(`strings`, `path/filepath` on Unix, `encoding/hex`, `time.Format`), and
theorems about the identifiers it generates and the requests it issues.

Go strings are modelled as lists of characters.  All characters the code
inspects (`/`, space, `-`, `.`) are ASCII, so the byte view and the
character view of a string agree on them.
-/

set_option autoImplicit false

namespace ClaudeMux

/-- Go `string`, as a list of characters. -/
abbrev Str := List Char

/-! ## `strings` -/

/-- Go `strings.HasPrefix`. -/
def HasPrefix (s pre : Str) : Bool := pre.isPrefixOf s

/-- Go `strings.HasSuffix`. -/
def HasSuffix (s suf : Str) : Bool := suf.isSuffixOf s

/-- Go `strings.Contains`: `sub` occurs in `s` at some offset. -/
def Contains : Str → Str → Bool
  | [], sub => sub.isPrefixOf []
  | c :: cs, sub => sub.isPrefixOf (c :: cs) || Contains cs sub

/-- Go `strings.ReplaceAll(s, old, new)` for one-character `old` and `new`,
which is how both call sites in `generateWorktreeDetails` use it. -/
def ReplaceAll (s : Str) (old new : Char) : Str :=
  s.map fun c => if c = old then new else c

/-- Go `strings.Join(elems, "/")`. -/
def joinSlash : List Str → Str
  | [] => []
  | [e] => e
  | e :: es => e ++ '/' :: joinSlash es

/-- Go `strings.Split(s, "/")`: the maximal `/`-free pieces of `s`, in order. -/
def splitSlash : Str → List Str
  | [] => [[]]
  | c :: cs =>
    if c = '/' then [] :: splitSlash cs
    else
      match splitSlash cs with
      | [] => [[c]]
      | seg :: rest => (c :: seg) :: rest

/-! ## `path/filepath` (Unix) -/

/-- Go `filepath.IsAbs` on Unix: the path starts with `/`. -/
def IsAbs (p : Str) : Bool := HasPrefix p ['/']

/-- One iteration of the scanning loop of `filepath.Clean`, on the path
element `seg`.  `stack` holds the elements written to the output buffer so
far, the most recent first.  Empty elements and `.` are dropped; `..`
removes the last element when that is an ordinary one, is dropped at the
root, and is kept in a relative path; everything else is appended. -/
def cleanStep (rooted : Bool) (stack : List Str) (seg : Str) : List Str :=
  if seg = [] ∨ seg = ['.'] then stack
  else if seg = ['.', '.'] then
    match stack with
    | [] => if rooted then [] else [seg]
    | top :: rest =>
      if top = ['.', '.'] then (if rooted then stack else seg :: stack) else rest
  else seg :: stack

/-- The string `filepath.Clean` returns for a final output buffer. -/
def renderClean (rooted : Bool) (stack : List Str) : Str :=
  if rooted then '/' :: joinSlash stack.reverse
  else if stack = [] then ['.'] else joinSlash stack.reverse

/-- Go `filepath.Clean` on Unix (no volume name): the shortest equivalent
path by purely lexical processing. -/
def Clean (path : Str) : Str :=
  if path = [] then ['.']
  else
    let rooted := IsAbs path
    renderClean rooted ((splitSlash path).foldl (cleanStep rooted) [])

/-- Go `filepath.Join` on Unix: leading empty elements are ignored, the rest
is joined with `/` and cleaned; all elements empty gives the empty string. -/
def Join : List Str → Str
  | [] => []
  | e :: es => if e = [] then Join es else Clean (joinSlash (e :: es))

/-! ## `encoding/hex` and `time.Format` -/

/-- Lowercase hexadecimal digit of `n % 16` (the table `"0123456789abcdef"`). -/
def hexDigit (n : Nat) : Char :=
  ['0', '1', '2', '3', '4', '5', '6', '7', '8', '9', 'a', 'b', 'c', 'd', 'e', 'f'].getD
    (n % 16) '0'

/-- Go `hex.EncodeToString`: two lowercase hex digits per byte. -/
def EncodeToString : List Nat → Str
  | [] => []
  | b :: bs => hexDigit (b % 256 / 16) :: hexDigit (b % 256) :: EncodeToString bs

/-- Decimal digit of `n % 10`. -/
def decDigit (n : Nat) : Char := Char.ofNat (48 + n % 10)

/-- The decimal digits of `u`, most significant first, as the digit loop of
Go's `appendInt` (package `time`) produces them; `fuel` bounds the number of
divisions by ten, and `u` itself is always enough. -/
def decimalDigits : Nat → Nat → Str
  | 0, u => [decDigit u]
  | fuel + 1, u =>
    if u < 10 then [decDigit u] else decimalDigits fuel (u / 10) ++ [decDigit u]

/-- Go `appendInt(b, x, width)` of package `time` for a non-negative `x`: the
decimal digits of `x`, with zeros in front up to `width` characters; a
number with more digits than `width` is written in full. -/
def appendInt (x width : Nat) : Str :=
  List.replicate (width - (decimalDigits x x).length) '0' ++ decimalDigits x x

/-- The wall-clock reading of `time.Now()`, broken into civil fields.  The
year of a wall-clock reading is not negative. -/
structure Time where
  year : Nat
  month : Nat
  day : Nat
  hour : Nat
  minute : Nat
  second : Nat
  deriving DecidableEq, Repr

/-- Go `t.Format("20060102-150405")`: the year in at least four digits
(`2006`), the month, day, hour, minute and second in at least two (`01`, `02`,
`15`, `04`, `05`), with `-` between the date and the time of day. -/
def Time.Format (t : Time) : Str :=
  appendInt t.year 4 ++ appendInt t.month 2 ++ appendInt t.day 2 ++
    '-' :: (appendInt t.hour 2 ++ appendInt t.minute 2 ++ appendInt t.second 2)

/-! ## Data model -/

/-- The fields of `config.Config`. -/
structure Config where
  WorktreeBasePath : Str
  ClaudeCommand : Str
  AutoCleanup : Bool
  Verbose : Bool
  deriving DecidableEq, Repr

/-- The fields of `git.Worktree`. -/
structure Worktree where
  Path : Str
  Branch : Str
  Commit : Str
  Locked : Bool
  deriving DecidableEq, Repr

/-- The fields of `worktree.WorktreeDetails`. -/
structure WorktreeDetails where
  Name : Str
  Branch : Str
  Path : Str
  deriving DecidableEq, Repr

/-- A Go `error` value: one returned by an external command or system call,
the not-found error `Remove` builds from the name, or an error
wrapped with a context by `fmt.Errorf("...: %w", err)`. -/
inductive Err where
  | external (msg : Str)
  | notFound (name : Str)
  | wrapped (ctx : Str) (inner : Err)
  deriving DecidableEq, Repr

/-- What `generateWorktreeDetails` reads from its surroundings: the result
of `m.git.CurrentBranch()`, the clock, the result of `rand.Read` on a
three-byte buffer (`none` when it fails) and the result of `os.Getwd()`. -/
structure GenEnv where
  currentBranch : Except Err Str
  now : Time
  randRead : Option (Nat × Nat × Nat)
  getwd : Except Err Str

/-- The three bytes hex-encoded by `generateWorktreeDetails`: the ones read,
or three zero bytes when `rand.Read` failed. -/
def randomBytes (r : Option (Nat × Nat × Nat)) : List Nat :=
  match r with
  | some (a, b, c) => [a, b, c]
  | none => [0, 0, 0]

/-- The literal `"claude-mux-"`. -/
def muxTag : Str := "claude-mux-".toList

/-- Go `Manager.generateWorktreeDetails`. -/
def generateWorktreeDetails (cfg : Config) (env : GenEnv) (name : Str) :
    Except Err WorktreeDetails :=
  match env.currentBranch with
  | .error e => .error e
  | .ok currentBranch =>
    let timestamp := env.now.Format
    let randomHex := EncodeToString (randomBytes env.randRead)
    let sessionName :=
      if name ≠ [] then name ++ '-' :: randomHex else timestamp ++ '-' :: randomHex
    let branch := muxTag ++ currentBranch ++ '-' :: sessionName
    let branch := ReplaceAll branch '/' '-'
    let branch := ReplaceAll branch ' ' '-'
    let basePath := cfg.WorktreeBasePath
    if ¬ IsAbs basePath then
      match env.getwd with
      | .error e => .error e
      | .ok cwd =>
        let basePath := Join [cwd, basePath]
        .ok { Name := sessionName, Branch := branch, Path := Join [basePath, sessionName] }
    else
      .ok { Name := sessionName, Branch := branch, Path := Join [basePath, sessionName] }

/-- The path `p` is the directory `base` or lies below it. -/
def isUnder (base p : Str) : Bool :=
  p = base || HasPrefix p (if HasSuffix base ['/'] then base else base ++ ['/'])


/-- Go `filepath.Base` on Unix: the last element of the path, trailing
slashes removed first; `.` for the empty path and `/` for a path of slashes. -/
def Base (path : Str) : Str :=
  if path = [] then ['.']
  else
    let stripped := (path.reverse.dropWhile fun c => c = '/').reverse
    let last := (splitSlash stripped).getLastD []
    if last = [] then ['/'] else last

/-- Go `filepath.Dir` on Unix: the path up to and including its last `/`,
cleaned. -/
def Dir (path : Str) : Str :=
  Clean (path.reverse.dropWhile fun c => c ≠ '/').reverse

/-! ## The parser of `git worktree list --porcelain` -/

/-- Go `unicode.IsSpace`: the characters `strings.TrimSpace` removes. -/
def isSpace (c : Char) : Bool :=
  (9 ≤ c.toNat && c.toNat ≤ 13) || c.toNat = 32 || c.toNat = 0x85 || c.toNat = 0xA0 ||
  c.toNat = 0x1680 || (0x2000 ≤ c.toNat && c.toNat ≤ 0x200A) || c.toNat = 0x2028 ||
  c.toNat = 0x2029 || c.toNat = 0x202F || c.toNat = 0x205F || c.toNat = 0x3000

/-- Go `strings.TrimSpace`: leading and trailing white space removed. -/
def TrimSpace (s : Str) : Str :=
  ((s.dropWhile isSpace).reverse.dropWhile isSpace).reverse

/-- Go `strings.TrimPrefix`. -/
def TrimPrefix (s pre : Str) : Str :=
  if HasPrefix s pre then s.drop pre.length else s

/-- Go `strings.Split(s, "\n")`: the maximal newline-free pieces of `s`. -/
def splitLines : Str → List Str
  | [] => [[]]
  | c :: cs =>
    if c = '\n' then [] :: splitLines cs
    else
      match splitLines cs with
      | [] => [[c]]
      | line :: rest => (c :: line) :: rest

/-- Go `strings.SplitN(line, " ", 2)`: the text before the first space as
`parts[0]`, and the text after it as `parts[1]` when there is a space. -/
def SplitN2 : Str → Str × Option Str
  | [] => ([], none)
  | c :: cs =>
    if c = ' ' then ([], some cs)
    else ((c :: (SplitN2 cs).1), (SplitN2 cs).2)

/-- The zero value `Worktree{}`. -/
def emptyWorktree : Worktree := { Path := [], Branch := [], Commit := [], Locked := false }

/-- The variables `worktrees` and `current` of `Client.ListWorktrees`. -/
structure ParseState where
  worktrees : List Worktree
  current : Worktree
  deriving DecidableEq, Repr

/-- The `switch parts[0]` of `Client.ListWorktrees`, on a trimmed non-empty
line. -/
def parseFields (current : Worktree) (line : Str) : Worktree :=
  let parts := SplitN2 line
  if parts.1 = "worktree".toList then
    match parts.2 with
    | some rest => { current with Path := rest }
    | none => current
  else if parts.1 = "branch".toList then
    match parts.2 with
    | some rest => { current with Branch := TrimPrefix rest "refs/heads/".toList }
    | none => current
  else if parts.1 = "HEAD".toList then
    match parts.2 with
    | some rest => { current with Commit := rest }
    | none => current
  else if parts.1 = "locked".toList then { current with Locked := true }
  else current

/-- One iteration of the loop of `Client.ListWorktrees` over the lines. -/
def parseLine (st : ParseState) (rawLine : Str) : ParseState :=
  let line := TrimSpace rawLine
  if line = [] then
    if st.current.Path ≠ [] then
      { worktrees := st.worktrees ++ [st.current], current := emptyWorktree }
    else st
  else { st with current := parseFields st.current line }

/-- The body of `Client.ListWorktrees` after the command ran: the records
parsed from its output. -/
def parsePorcelain (output : Str) : List Worktree :=
  let st := (splitLines output).foldl parseLine { worktrees := [], current := emptyWorktree }
  if st.current.Path ≠ [] then st.worktrees ++ [st.current] else st.worktrees

/-- Go `Client.ListWorktrees`, as a function of what
`git worktree list --porcelain` returned. -/
def ListWorktrees (cmdOutput : Except Err Str) : Except Err (List Worktree) :=
  match cmdOutput with
  | .error err => .error (.wrapped "failed to list worktrees".toList err)
  | .ok output => .ok (parsePorcelain output)

/-! ## The manager and its collaborators -/

/-- The responses of `git.Client`, each a function of the state `σ` of the
repository and the machine, returning the answer and the state after it.
`none` is a nil error. -/
structure Client (σ : Type) where
  ValidateRepo : σ → Option Err × σ
  CurrentBranch : σ → Except Err Str × σ
  CreateWorktree : Str → Str → σ → Option Err × σ
  ListWorktrees : σ → Except Err (List Worktree) × σ
  RemoveWorktree : Str → σ → Option Err × σ
  DeleteBranch : Str → Bool → σ → Option Err × σ

/-- The operating-system calls of the manager: the clock, `rand.Read`,
`os.Getwd`, `os.MkdirAll` and `launchClaude`, the run of the Claude command
(first argument) in a directory (second argument). -/
structure Host (σ : Type) where
  Now : σ → Time
  RandRead : σ → Option (Nat × Nat × Nat)
  Getwd : σ → Except Err Str
  MkdirAll : Str → σ → Option Err × σ
  launchClaude : Str → Str → σ → Option Err × σ

/-- Go `worktree.Manager`: the configuration and the git client, with the
host it runs on. -/
structure Manager (σ : Type) where
  config : Config
  git : Client σ
  host : Host σ

/-- A call on `git.Client`.  `removeWorktree` always passes `--force`. -/
inductive Request where
  | validateRepo
  | currentBranch
  | createWorktree (path branch : Str)
  | listWorktrees
  | removeWorktree (path : Str)
  | deleteBranch (branch : Str) (force : Bool)
  deriving DecidableEq, Repr

/-- A line (or block of lines) the manager prints, by the `Printf` or
`Println` that prints it. -/
inductive Msg where
  /-- Prints `🌳 Creating worktree: <name>`. -/
  | creating (name : Str)
  /-- Prints `✅ Worktree created at: <path>`. -/
  | createdAt (path : Str)
  /-- Prints `🌿 Branch: <branch>`. -/
  | branchIs (branch : Str)
  /-- Prints `🚀 Launching Claude Code...`. -/
  | launching
  /-- Prints `🧹 Cleaning up worktree...`. -/
  | cleaningUp
  /-- Prints `✨ Session completed. Worktree preserved at: <path>`. -/
  | preservedAt (path : Str)
  /-- Prints `💡 To remove: claude-mux remove <name>`. -/
  | removeHint (name : Str)
  /-- Prints `No active Claude worktrees found.`. -/
  | noActive
  /-- Prints `Active Claude worktrees:` and the blank line after it. -/
  | listHeader
  /-- The branch, `Path:` and `Status:` lines of one worktree -/
  | listEntry (branch path status : Str)
  /-- Prints `⚠️  Failed to remove worktree: <err>`. -/
  | failedRemoveWorktree (err : Err)
  /-- Prints `✅ Removed worktree: <path>`. -/
  | removedWorktree (path : Str)
  /-- Prints `ℹ️  Branch preserved (has unmerged changes): <branch>`. -/
  | branchPreserved (branch : Str)
  /-- Prints `✅ Deleted branch: <branch>`. -/
  | deletedBranch (branch : Str)
  /-- Prints `⚠️  Failed to remove <path>: <err>`. -/
  | failedRemove (path : Str) (err : Err)
  /-- Prints `🧹 Removed <count> worktree(s)`. -/
  | removedCount (count : Nat)
  deriving DecidableEq, Repr

/-- What an operation does that can be seen from outside, in order. -/
inductive Event where
  | git (r : Request)
  | mkdirAll (dir : Str)
  | launch (dir : Str)
  | print (m : Msg)
  deriving DecidableEq, Repr

/-- The outcome of running an operation: what it returns, the state it
leaves and the events it produced. -/
structure Run (σ α : Type) where
  result : α
  world : σ
  trace : List Event

/-- Go `Manager.cleanup`. -/
def Manager.cleanup {σ : Type} (m : Manager σ) (details : WorktreeDetails) (w : σ) :
    Run σ (Option Err) :=
  let r1 := m.git.RemoveWorktree details.Path w
  let t1 : List Event :=
    [.git (.removeWorktree details.Path),
     .print (match r1.1 with
       | some err => .failedRemoveWorktree err
       | none => .removedWorktree details.Path)]
  let r2 := m.git.DeleteBranch details.Branch false r1.2
  match r2.1 with
  | some _ =>
    let r3 := m.git.DeleteBranch details.Branch true r2.2
    match r3.1 with
    | some _ =>
      ⟨none, r3.2, t1 ++ [.git (.deleteBranch details.Branch false),
        .git (.deleteBranch details.Branch true), .print (.branchPreserved details.Branch)]⟩
    | none =>
      ⟨none, r3.2, t1 ++ [.git (.deleteBranch details.Branch false),
        .git (.deleteBranch details.Branch true), .print (.deletedBranch details.Branch)]⟩
  | none =>
    ⟨none, r2.2, t1 ++ [.git (.deleteBranch details.Branch false),
      .print (.deletedBranch details.Branch)]⟩

/-- Go `Manager.createWorktree`: the parent directory is created first, then
the worktree with its new branch. -/
def Manager.createWorktree {σ : Type} (m : Manager σ) (details : WorktreeDetails) (w : σ) :
    Run σ (Option Err) :=
  let parentDir := Dir details.Path
  let r1 := m.host.MkdirAll parentDir w
  match r1.1 with
  | some err =>
    ⟨some (.wrapped "failed to create directory".toList err), r1.2, [.mkdirAll parentDir]⟩
  | none =>
    let r2 := m.git.CreateWorktree details.Path details.Branch r1.2
    ⟨r2.1, r2.2, [.mkdirAll parentDir, .git (.createWorktree details.Path details.Branch)]⟩

/-- Go `Manager.CreateAndLaunch`.  The call of `generateWorktreeDetails` is
the `CurrentBranch` request followed by the reads of the clock, of
`rand.Read` and of `os.Getwd` in the state after it. -/
def Manager.CreateAndLaunch {σ : Type} (m : Manager σ) (name : Str) (w : σ) :
    Run σ (Option Err) :=
  let r0 := m.git.ValidateRepo w
  match r0.1 with
  | some err => ⟨some (.wrapped "not in a git repository".toList err), r0.2, [.git .validateRepo]⟩
  | none =>
    let rb := m.git.CurrentBranch r0.2
    let env : GenEnv :=
      { currentBranch := rb.1, now := m.host.Now rb.2, randRead := m.host.RandRead rb.2,
        getwd := m.host.Getwd rb.2 }
    match generateWorktreeDetails m.config env name with
    | .error err =>
      ⟨some (.wrapped "failed to generate worktree details".toList err), rb.2,
        [.git .validateRepo, .git .currentBranch]⟩
    | .ok details =>
      let t1 : List Event :=
        [.git .validateRepo, .git .currentBranch, .print (.creating details.Name)]
      let rc := m.createWorktree details rb.2
      match rc.result with
      | some err =>
        ⟨some (.wrapped "failed to create worktree".toList err), rc.world, t1 ++ rc.trace⟩
      | none =>
        let t2 : List Event := t1 ++ rc.trace ++
          [.print (.createdAt details.Path), .print (.branchIs details.Branch),
           .print .launching, .launch details.Path]
        let rl := m.host.launchClaude m.config.ClaudeCommand details.Path rc.world
        match rl.1 with
        | some err =>
          if m.config.AutoCleanup then
            let k := m.cleanup details rl.2
            ⟨some (.wrapped "failed to launch Claude".toList err), k.world, t2 ++ k.trace⟩
          else
            ⟨some (.wrapped "failed to launch Claude".toList err), rl.2, t2⟩
        | none =>
          if m.config.AutoCleanup then
            let k := m.cleanup details rl.2
            ⟨k.result, k.world, t2 ++ .print .cleaningUp :: k.trace⟩
          else
            ⟨none, rl.2, t2 ++
              [.print (.preservedAt details.Path), .print (.removeHint details.Name)]⟩

/-- The filtering loop of `Manager.List`: `acc` is `claudeWorktrees` so far. -/
def listLoop (basePath : Str) : List Worktree → List Worktree → List Worktree
  | acc, [] => acc
  | acc, wt :: rest =>
    if Contains wt.Branch muxTag || Contains wt.Path basePath then
      listLoop basePath (acc ++ [wt]) rest
    else listLoop basePath acc rest

/-- The lines `Manager.List` prints for one worktree. -/
def listEntryOf (wt : Worktree) : Msg :=
  .listEntry wt.Branch wt.Path (if wt.Locked then "locked".toList else "active".toList)

/-- Go `Manager.List`. -/
def Manager.List {σ : Type} (m : Manager σ) (w : σ) : Run σ (Option Err) :=
  match m.git.ListWorktrees w with
  | (.error err, w1) => ⟨some err, w1, [.git .listWorktrees]⟩
  | (.ok worktrees, w1) =>
    let claudeWorktrees := listLoop m.config.WorktreeBasePath [] worktrees
    if claudeWorktrees.length = 0 then
      ⟨none, w1, [.git .listWorktrees, .print .noActive]⟩
    else
      ⟨none, w1, .git .listWorktrees :: .print .listHeader ::
        claudeWorktrees.map fun wt => .print (listEntryOf wt)⟩

/-- The search loop of `Manager.Remove`: the first worktree, in order, whose
branch contains `name` or whose path ends with `name`; `none` is the nil
`target`. -/
def findTarget (name : Str) : List Worktree → Option Worktree
  | [] => none
  | wt :: rest =>
    if Contains wt.Branch name || HasSuffix wt.Path name then some wt
    else findTarget name rest

/-- Go `Manager.Remove`. -/
def Manager.Remove {σ : Type} (m : Manager σ) (name : Str) (force : Bool) (w : σ) :
    Run σ (Option Err) :=
  match m.git.ListWorktrees w with
  | (.error err, w1) => ⟨some err, w1, [.git .listWorktrees]⟩
  | (.ok worktrees, w1) =>
    match findTarget name worktrees with
    | none => ⟨some (.notFound name), w1, [.git .listWorktrees]⟩
    | some target =>
      let details : WorktreeDetails := { Name := name, Branch := target.Branch, Path := target.Path }
      let r := m.cleanup details w1
      ⟨r.result, r.world, .git .listWorktrees :: r.trace⟩

/-- The loop of `Manager.Prune` over the worktrees: `count` enters with the
value so far; the run returns its final value. -/
def pruneLoop {σ : Type} (m : Manager σ) : List Worktree → Nat → σ → Run σ Nat
  | [], count, w => ⟨count, w, []⟩
  | wt :: rest, count, w =>
    if Contains wt.Branch muxTag || Contains wt.Path m.config.WorktreeBasePath then
      let details : WorktreeDetails := { Name := Base wt.Path, Branch := wt.Branch, Path := wt.Path }
      let r := m.cleanup details w
      match r.result with
      | some err =>
        let k := pruneLoop m rest count r.world
        ⟨k.result, k.world, r.trace ++ .print (.failedRemove wt.Path err) :: k.trace⟩
      | none =>
        let k := pruneLoop m rest (count + 1) r.world
        ⟨k.result, k.world, r.trace ++ k.trace⟩
    else pruneLoop m rest count w

/-- Go `Manager.Prune`. -/
def Manager.Prune {σ : Type} (m : Manager σ) (w : σ) : Run σ (Option Err) :=
  match m.git.ListWorktrees w with
  | (.error err, w1) => ⟨some err, w1, [.git .listWorktrees]⟩
  | (.ok worktrees, w1) =>
    let k := pruneLoop m worktrees 0 w1
    ⟨none, k.world, .git .listWorktrees :: k.trace ++ [.print (.removedCount k.result)]⟩

/-! ## Reading a trace -/

/-- The git requests of a trace, in order. -/
def requests (t : List Event) : List Request :=
  t.filterMap fun e => match e with
    | .git r => some r
    | _ => none

/-- The printed messages of a trace, in order. -/
def printed (t : List Event) : List Msg :=
  t.filterMap fun e => match e with
    | .print p => some p
    | _ => none

/-- The paths of the `removeWorktree` requests of a trace, in order. -/
def removedPaths (t : List Event) : List Str :=
  t.filterMap fun e => match e with
    | .git (.removeWorktree p) => some p
    | _ => none

/-- The branches of the safe (`force = false`) `deleteBranch` requests of a
trace, in order. -/
def safeDeletedBranches (t : List Event) : List Str :=
  t.filterMap fun e => match e with
    | .git (.deleteBranch b false) => some b
    | _ => none

/-- The branches of the forced (`force = true`) `deleteBranch` requests of a
trace, in order. -/
def forceDeletedBranches (t : List Event) : List Str :=
  t.filterMap fun e => match e with
    | .git (.deleteBranch b true) => some b
    | _ => none

/-- The branches a trace reports as preserved, in order. -/
def preservedBranches (t : List Event) : List Str :=
  t.filterMap fun e => match e with
    | .print (.branchPreserved b) => some b
    | _ => none

/-- The counts a trace reports as removed, in order. -/
def reportedCounts (t : List Event) : List Nat :=
  t.filterMap fun e => match e with
    | .print (.removedCount n) => some n
    | _ => none

/-- The `Failed to remove ...` messages of a trace, in order. -/
def failureReports (t : List Event) : List Msg :=
  t.filterMap fun e => match e with
    | .print (.failedRemoveWorktree err) => some (.failedRemoveWorktree err)
    | .print (.failedRemove p err) => some (.failedRemove p err)
    | _ => none

/-- The directories a trace launches the Claude command in, in order. -/
def launches (t : List Event) : List Str :=
  t.filterMap fun e => match e with
    | .launch dir => some dir
    | _ => none

/-- The directories a trace creates with `os.MkdirAll`, in order. -/
def createdDirs (t : List Event) : List Str :=
  t.filterMap fun e => match e with
    | .mkdirAll dir => some dir
    | _ => none

/-- The branch, path and status of the worktree entries a trace prints. -/
def renderedEntries (t : List Event) : List (Str × Str × Str) :=
  t.filterMap fun e => match e with
    | .print (.listEntry b p s) => some (b, p, s)
    | _ => none

/-! ## The specification's predicates -/

/-- The ownership predicate of the specification: the branch contains the
tag `claude-mux-`, or the path contains the configured base path. -/
def isOwned (basePath : Str) (wt : Worktree) : Bool :=
  Contains wt.Branch muxTag || Contains wt.Path basePath

/-- The match condition of `remove` in the specification: the branch contains
`name`, or the path ends with `name`. -/
def matchesName (name : Str) (wt : Worktree) : Bool :=
  Contains wt.Branch name || HasSuffix wt.Path name

/-- The status `list` shows for a record. -/
def statusOf (wt : Worktree) : Str :=
  if wt.Locked then "locked".toList else "active".toList

/-- The text after `key` and one space, when `line` starts with them. -/
def textAfter (key line : Str) : Option Str :=
  if HasPrefix line (key ++ [' ']) then some (line.drop (key.length + 1)) else none

/-- The text after `key` and one space on the last of `lines` that starts
with them; the empty string when no line does. -/
def lastTextAfter (key : Str) (lines : List Str) : Str :=
  ((lines.filterMap (textAfter key)).getLast?).getD []

/-- The first word of a line: the text before its first space. -/
def firstWord (line : Str) : Str := line.takeWhile fun c => c ≠ ' '

/-- The record the specification reads off the lines of one block. -/
def blockRecord (lines : List Str) : Worktree :=
  { Path := lastTextAfter "worktree".toList lines,
    Branch := TrimPrefix (lastTextAfter "branch".toList lines) "refs/heads/".toList,
    Commit := lastTextAfter "HEAD".toList lines,
    Locked := lines.any fun l => firstWord l = "locked".toList }

/-- Lines joined with newlines (`strings.Join(lines, "\n")`). -/
def joinLines : List Str → Str
  | [] => []
  | [l] => l
  | l :: ls => l ++ '\n' :: joinLines ls

/-- The lines of an output: each block of `blocks` followed by one empty line
and as many further empty lines as its number says, then the block `final`
and `trailing` empty pieces after it. -/
def porcelainLines (blocks : List (List Str × Nat)) (final : List Str) (trailing : Nat) :
    List Str :=
  (blocks.map fun b => b.1 ++ List.replicate (b.2 + 1) []).flatten ++ final ++
    List.replicate trailing []

/-- The number a string of decimal digits denotes. -/
def decimalValue (s : Str) : Nat :=
  s.foldl (fun acc c => 10 * acc + (c.toNat - 48)) 0

/-- The string `s` is the decimal numeral of `value` zero-padded to `width`:
it consists of decimal digits, denotes `value`, has at least `width`
characters, and has no leading zero when it has more. -/
def IsPaddedDecimal (width value : Nat) (s : Str) : Prop :=
  (∀ c ∈ s, c ∈ "0123456789".toList) ∧ decimalValue s = value ∧ width ≤ s.length ∧
    (width < s.length → s.head? ≠ some '0')

/-- The value of a lowercase hexadecimal digit. -/
def hexValue (c : Char) : Nat := "0123456789abcdef".toList.indexOf c

/-- The bytes a string of pairs of hexadecimal digits denotes. -/
def decodeHex : Str → List Nat
  | hi :: lo :: rest => (16 * hexValue hi + hexValue lo) :: decodeHex rest
  | _ => []

/-- A clock reading within the civil ranges, the year having at most four
digits. -/
def Time.IsCivil (t : Time) : Prop :=
  t.year ≤ 9999 ∧ 1 ≤ t.month ∧ t.month ≤ 12 ∧ 1 ≤ t.day ∧ t.day ≤ 31 ∧ t.hour ≤ 23 ∧
    t.minute ≤ 59 ∧ t.second ≤ 59

/-- The descriptor `Prune` builds for a record. -/
def pruneDetails (wt : Worktree) : WorktreeDetails :=
  { Name := Base wt.Path, Branch := wt.Branch, Path := wt.Path }

/-- The removal of the worktree of `d`, requested in state `w`, fails. -/
def removalFails {σ : Type} (m : Manager σ) (d : WorktreeDetails) (w : σ) : Bool :=
  (m.git.RemoveWorktree d.Path w).1.isSome

/-- In the cleanup of `d` started in state `w`, the safe delete of the branch
is rejected and the forced delete that follows fails too. -/
def bothDeletesFail {σ : Type} (m : Manager σ) (d : WorktreeDetails) (w : σ) : Bool :=
  (m.git.DeleteBranch d.Branch false (m.git.RemoveWorktree d.Path w).2).1.isSome &&
  (m.git.DeleteBranch d.Branch true
    (m.git.DeleteBranch d.Branch false (m.git.RemoveWorktree d.Path w).2).2).1.isSome

/-- The state `Prune` is in after the cleanup of the record `wt` started in
state `w`. -/
def afterCleanup {σ : Type} (m : Manager σ) (wt : Worktree) (w : σ) : σ :=
  (m.cleanup (pruneDetails wt) w).world

/-! ## Auxiliary definitions for the proofs -/

/-- The branch name after both replacements. -/
def normalize (s : Str) : Str := ReplaceAll (ReplaceAll s '/' '-') ' ' '-'

/-- The session label `generateWorktreeDetails` builds. -/
def sessionLabel (t : Time) (r : Option (Nat × Nat × Nat)) (name : Str) : Str :=
  (if name = [] then t.Format else name) ++ '-' :: EncodeToString (randomBytes r)

/-- The base path after resolution against the working directory. -/
def resolvedBase (cfg : Config) (cwd : Str) : Str :=
  if IsAbs cfg.WorktreeBasePath then cfg.WorktreeBasePath else Join [cwd, cfg.WorktreeBasePath]

/-- An ordinary path element: not empty, not `.`, not `..`, and free of `/`. -/
def Ordinary (seg : Str) : Prop :=
  seg ≠ [] ∧ seg ≠ ['.'] ∧ seg ≠ ['.', '.'] ∧ '/' ∉ seg

/-- What `joinSlash` puts before a last element appended to `xs`. -/
def joinLead (xs : List Str) : Str :=
  if xs = [] then [] else joinSlash xs ++ ['/']

/-- The output buffer of `Clean` on a rooted path. -/
def rootedStack (path : Str) : List Str :=
  (splitSlash path).foldl (cleanStep true) []

/-- What `Join [base, l]` puts before an ordinary last element `l`. -/
def pathLead (base : Str) : Str :=
  if base = [] then []
  else if IsAbs base then
    '/' :: joinLead ((splitSlash base).foldl (cleanStep true) []).reverse
  else joinLead ((splitSlash base).foldl (cleanStep false) []).reverse

/-- What `generateWorktreeDetails` reads when it is called in state `w`: the
answer to its `CurrentBranch` request, and the clock, `rand.Read` and
`os.Getwd` in the state after that request. -/
def genEnvOf {σ : Type} (m : Manager σ) (w : σ) : GenEnv :=
  { currentBranch := (m.git.CurrentBranch w).1,
    now := m.host.Now (m.git.CurrentBranch w).2,
    randRead := m.host.RandRead (m.git.CurrentBranch w).2,
    getwd := m.host.Getwd (m.git.CurrentBranch w).2 }

/-- The events of `CreateAndLaunch` up to and including the launch of the
session, for the descriptor `details` and the trace `created` of
`createWorktree`. -/
def launchPrelude (details : WorktreeDetails) (created : List Event) : List Event :=
  [.git .validateRepo, .git .currentBranch, .print (.creating details.Name)] ++ created ++
    [.print (.createdAt details.Path), .print (.branchIs details.Branch),
     .print .launching, .launch details.Path]

/-! ## Fixtures -/

/-- A git client over a fixed snapshot `wts`: listing returns the snapshot,
worktree removal succeeds, and a branch delete fails as `failSafe` (without
force) and `failForce` (with force) say. -/
def fixedClient (wts : List Worktree) (failSafe failForce : Str → Bool) : Client Unit where
  ValidateRepo := fun w => (none, w)
  CurrentBranch := fun w => (.ok "main".toList, w)
  CreateWorktree := fun _ _ w => (none, w)
  ListWorktrees := fun w => (.ok wts, w)
  RemoveWorktree := fun _ w => (none, w)
  DeleteBranch := fun b force w =>
    (if (if force then failForce b else failSafe b) then
      some (.external "exit status 1".toList) else none, w)

/-- A host whose calls all succeed, at midnight of 1 January 2024, with
`rand.Read` failing, in `/repo`. -/
def fixedHost : Host Unit where
  Now := fun _ => ⟨2024, 1, 1, 0, 0, 0⟩
  RandRead := fun _ => none
  Getwd := fun _ => .ok "/repo".toList
  MkdirAll := fun _ w => (none, w)
  launchClaude := fun _ _ w => (none, w)

/-- The default configuration (`config.DefaultConfig`). -/
def DefaultConfig : Config :=
  { WorktreeBasePath := ".claude-mux".toList, ClaudeCommand := "claude".toList,
    AutoCleanup := false, Verbose := false }

/-- A manager with the default configuration over `fixedClient`. -/
def fixedManager (wts : List Worktree) (failSafe failForce : Str → Bool) : Manager Unit :=
  { config := DefaultConfig, git := fixedClient wts failSafe failForce, host := fixedHost }

/-- A manager-owned worktree record as `generateWorktreeDetails` names it on
branch `main` with the zero suffix. -/
def sampleWorktree (name : String) : Worktree :=
  { Path := "/repo/.claude-mux/".toList ++ name.toList ++ "-000000".toList,
    Branch := "claude-mux-main-".toList ++ name.toList ++ "-000000".toList,
    Commit := "0123abc".toList, Locked := false }

/-- The main worktree of the repository, on branch `main`. -/
def mainWorktree : Worktree :=
  { Path := "/repo".toList, Branch := "main".toList, Commit := "0123abc".toList, Locked := false }

/-- A snapshot of the main worktree and three sessions `a`, `b`, `c`. -/
def threeSessions : List Worktree :=
  [mainWorktree, sampleWorktree "a", sampleWorktree "b", sampleWorktree "c"]

/-- The branch of session `b` is the one whose deletion fails. -/
def failsForB (branch : Str) : Bool := branch == "claude-mux-main-b-000000".toList

/-- A manager over `threeSessions` where deleting the branch of session `b`
fails with and without force, and every other request succeeds. -/
def pruneFixture : Manager Unit := fixedManager threeSessions failsForB failsForB

/-- Midnight of 1 January 2024. -/
def newYear2024 : Time := ⟨2024, 1, 1, 0, 0, 0⟩

/-- The surroundings of a call on branch `main` in `/repo` at `newYear2024`
with `rand.Read` failing, so that the suffix is the zero fallback. -/
def zeroEnv : GenEnv :=
  { currentBranch := .ok "main".toList, now := newYear2024, randRead := none,
    getwd := .ok "/repo".toList }

/-- The surroundings of a call on branch `main` in `/repo` at `newYear2024`
where `rand.Read` gives the bytes `ab 12 cd`. -/
def sampleEnv : GenEnv :=
  { currentBranch := .ok "main".toList, now := newYear2024, randRead := some (171, 18, 205),
    getwd := .ok "/repo".toList }

/-- A configuration with base path `basePath` and the other defaults. -/
def configWithBase (basePath : String) : Config :=
  { DefaultConfig with WorktreeBasePath := basePath.toList }

/-- A manager in `/repo` on branch `main` with the default configuration and
the given auto-cleanup flag, whose `ValidateRepo`, `CreateWorktree` and
`launchClaude` answer as given (`none` is success), whose branch deletes
fail as `failDelete` says, and whose other calls succeed. -/
def scriptedManager (autoCleanup : Bool) (validate create launch : Option Err)
    (failDelete : Bool) : Manager Unit :=
  { config := { DefaultConfig with AutoCleanup := autoCleanup },
    git :=
      { fixedClient [] (fun _ => failDelete) (fun _ => failDelete) with
        ValidateRepo := fun w => (validate, w)
        CreateWorktree := fun _ _ w => (create, w) },
    host := { fixedHost with launchClaude := fun _ _ w => (launch, w) } }

/-- The error of a command that exits with status 128. -/
def exit128 : Err := .external "exit status 128".toList

/-- The descriptor `generateWorktreeDetails` gives for the name `task` in the
fixtures: zero suffix, branch `main`, directory `/repo`. -/
def taskDetails : WorktreeDetails :=
  { Name := "task-000000".toList, Branch := "claude-mux-main-task-000000".toList,
    Path := "/repo/.claude-mux/task-000000".toList }

/-- The block `git worktree list --porcelain` prints for the main worktree. -/
def mainBlock : List Str :=
  ["worktree /repo".toList, "HEAD 0123abc".toList, "branch refs/heads/main".toList]

/-- The block of a locked worktree on a detached HEAD. -/
def lockedBlock : List Str :=
  ["worktree /repo/.claude-mux/a-000000".toList, "HEAD 4567def".toList, "detached".toList,
   "locked in use".toList]

/-- The block of a worktree whose directory name ends with a space. -/
def trailingSpaceBlock : List Str :=
  ["worktree /repo/wt ".toList, "HEAD 0123abc".toList, "branch refs/heads/x".toList]

/-! ## Lemmas on the string functions -/

theorem Contains_iff (s sub : Str) : Contains s sub = true ↔ sub <:+: s := by
  induction s with
  | nil => simp [Contains]
  | cons c cs ih => simp [Contains, ih, List.infix_cons_iff]

theorem Contains_append_right (s t : Str) : Contains (s ++ t) s = true :=
  (Contains_iff _ _).2 (List.prefix_append s t).isInfix

theorem HasSuffix_iff (s suf : Str) : HasSuffix s suf = true ↔ suf <:+ s := by
  simp [HasSuffix]

theorem HasPrefix_iff (s pre : Str) : HasPrefix s pre = true ↔ pre <+: s := by
  simp [HasPrefix]

theorem not_mem_ReplaceAll (s : Str) (old new : Char) (h : new ≠ old) :
    old ∉ ReplaceAll s old new := by
  intro hmem
  obtain ⟨c, -, hc⟩ := List.mem_map.1 hmem
  by_cases hco : c = old
  · rw [if_pos hco] at hc; exact h hc
  · rw [if_neg hco] at hc; exact hco hc

theorem not_mem_ReplaceAll_of_not_mem (s : Str) (old new x : Char) (hx : x ∉ s)
    (hn : x ≠ new) : x ∉ ReplaceAll s old new := by
  intro hmem
  obtain ⟨c, hcs, hc⟩ := List.mem_map.1 hmem
  by_cases hco : c = old
  · rw [if_pos hco] at hc; exact hn hc.symm
  · rw [if_neg hco] at hc; exact hx (hc ▸ hcs)

theorem ReplaceAll_append (s t : Str) (old new : Char) :
    ReplaceAll (s ++ t) old new = ReplaceAll s old new ++ ReplaceAll t old new := by
  simp [ReplaceAll]

theorem ReplaceAll_of_not_mem (s : Str) (old new : Char) (h : old ∉ s) :
    ReplaceAll s old new = s := by
  induction s with
  | nil => rfl
  | cons c cs ih =>
    have hc : c ≠ old := fun e => h (e ▸ List.mem_cons_self _ _)
    have hcs : old ∉ cs := fun e => h (List.mem_cons_of_mem _ e)
    have ih := ih hcs
    simp only [ReplaceAll, List.map_cons, if_neg hc] at ih ⊢
    rw [ih]

theorem ReplaceAll_muxTag_slash : ReplaceAll muxTag '/' '-' = muxTag := by decide

theorem ReplaceAll_muxTag_space : ReplaceAll muxTag ' ' '-' = muxTag := by decide

theorem normalize_append (s t : Str) : normalize (s ++ t) = normalize s ++ normalize t := by
  simp [normalize, ReplaceAll_append]

theorem normalize_muxTag : normalize muxTag = muxTag := by decide

theorem slash_not_mem_normalize (s : Str) : '/' ∉ normalize s :=
  not_mem_ReplaceAll_of_not_mem _ _ _ _ (not_mem_ReplaceAll s '/' '-' (by decide)) (by decide)

theorem space_not_mem_normalize (s : Str) : ' ' ∉ normalize s :=
  not_mem_ReplaceAll _ ' ' '-' (by decide)

theorem normalize_of_not_mem (s : Str) (h1 : '/' ∉ s) (h2 : ' ' ∉ s) : normalize s = s := by
  unfold normalize
  rw [ReplaceAll_of_not_mem s _ _ h1, ReplaceAll_of_not_mem s _ _ h2]

/-! ## Lemmas on `generateWorktreeDetails` -/

theorem generateWorktreeDetails_ok (cfg : Config) (t : Time) (r : Option (Nat × Nat × Nat))
    (b cwd name : Str) :
    generateWorktreeDetails cfg ⟨.ok b, t, r, .ok cwd⟩ name =
      .ok { Name := sessionLabel t r name,
            Branch := normalize (muxTag ++ b ++ '-' :: sessionLabel t r name),
            Path := Join [resolvedBase cfg cwd, sessionLabel t r name] } := by
  unfold generateWorktreeDetails resolvedBase sessionLabel normalize
  by_cases hn : name = [] <;> by_cases ha : IsAbs cfg.WorktreeBasePath = true <;> simp [hn, ha]

/-! ## Theorems -/

/-- C2: for every name and every current branch, the branch that
`generateWorktreeDetails` produces is the replacement of `/` and space by `-`
in the whole string `claude-mux-<currentBranch>-<sessionName>`; it starts
with `claude-mux-` and contains neither `/` nor a space. -/
theorem branch_has_tag_and_no_separator (cfg : Config) (t : Time)
    (r : Option (Nat × Nat × Nat)) (b cwd name : Str) :
    ∃ d, generateWorktreeDetails cfg ⟨.ok b, t, r, .ok cwd⟩ name = .ok d ∧
      d.Branch = ReplaceAll (ReplaceAll (muxTag ++ b ++ '-' :: d.Name) '/' '-') ' ' '-' ∧
      HasPrefix d.Branch muxTag = true ∧ '/' ∉ d.Branch ∧ ' ' ∉ d.Branch := by
  refine ⟨_, generateWorktreeDetails_ok cfg t r b cwd name, rfl, ?_, ?_, ?_⟩
  · rw [HasPrefix_iff]
    show muxTag <+: normalize (muxTag ++ b ++ '-' :: sessionLabel t r name)
    rw [List.append_assoc, normalize_append, normalize_muxTag]
    exact List.prefix_append _ _
  · exact slash_not_mem_normalize _
  · exact space_not_mem_normalize _

theorem hexDigit_mem (n : Nat) : hexDigit n ∈ "0123456789abcdef".toList := by
  have h : n % 16 < 16 := Nat.mod_lt _ (by decide)
  unfold hexDigit
  generalize n % 16 = k at h
  interval_cases k <;> decide

theorem EncodeToString_length (bs : List Nat) : (EncodeToString bs).length = 2 * bs.length := by
  induction bs with
  | nil => rfl
  | cons b bs ih => simp only [EncodeToString, List.length_cons, ih]; omega

theorem EncodeToString_mem (bs : List Nat) :
    ∀ c ∈ EncodeToString bs, c ∈ "0123456789abcdef".toList := by
  induction bs with
  | nil => intro c hc; cases hc
  | cons b bs ih =>
    intro c hc
    simp only [EncodeToString, List.mem_cons] at hc
    rcases hc with rfl | rfl | hc
    · exact hexDigit_mem _
    · exact hexDigit_mem _
    · exact ih c hc

theorem randomBytes_length (r : Option (Nat × Nat × Nat)) : (randomBytes r).length = 3 := by
  rcases r with _ | ⟨a, b, c⟩ <;> rfl

theorem decDigit_mem (n : Nat) : decDigit n ∈ "0123456789".toList := by
  have h : n % 10 < 10 := Nat.mod_lt _ (by decide)
  unfold decDigit
  generalize n % 10 = k at h
  interval_cases k <;> decide

theorem decimalDigits_mem (fuel u : Nat) :
    ∀ c ∈ decimalDigits fuel u, c ∈ "0123456789".toList := by
  induction fuel generalizing u with
  | zero =>
    intro c hc
    rw [decimalDigits, List.mem_singleton] at hc
    rw [hc]
    exact decDigit_mem u
  | succ k ih =>
    intro c hc
    rw [decimalDigits] at hc
    split at hc
    · rw [List.mem_singleton] at hc
      rw [hc]
      exact decDigit_mem u
    · rcases List.mem_append.1 hc with h | h
      · exact ih _ c h
      · rw [List.mem_singleton] at h
        rw [h]
        exact decDigit_mem u

theorem appendInt_mem (x width : Nat) : ∀ c ∈ appendInt x width, c ∈ "0123456789".toList := by
  intro c hc
  unfold appendInt at hc
  rcases List.mem_append.1 hc with h | h
  · rw [(List.mem_replicate.1 h).2]
    decide
  · exact decimalDigits_mem _ _ c h

theorem decDigit_value (u : Nat) : (decDigit u).toNat - 48 = u % 10 := by
  have h : u % 10 < 10 := Nat.mod_lt _ (by decide)
  unfold decDigit
  generalize u % 10 = k at h
  interval_cases k <;> rfl

theorem decDigit_ne_zero (u : Nat) (h1 : 1 ≤ u) (h2 : u < 10) : decDigit u ≠ '0' := by
  unfold decDigit
  interval_cases u <;> decide

theorem decimalValue_concat (s : Str) (c : Char) :
    decimalValue (s ++ [c]) = 10 * decimalValue s + (c.toNat - 48) := by
  simp [decimalValue, List.foldl_append]

theorem decimalValue_decimalDigits (fuel u : Nat) (h : u ≤ fuel) :
    decimalValue (decimalDigits fuel u) = u := by
  induction fuel generalizing u with
  | zero =>
    have hu : u = 0 := Nat.le_zero.1 h
    subst hu
    rfl
  | succ k ih =>
    rw [decimalDigits]
    split
    · rename_i hlt
      have := decDigit_value u
      simp only [decimalValue, List.foldl_cons, List.foldl_nil, Nat.mul_zero, Nat.zero_add]
      rw [this]
      exact Nat.mod_eq_of_lt hlt
    · rename_i hge
      rw [decimalValue_concat, ih (u / 10) (by omega), decDigit_value]
      omega

theorem decimalValue_zeros_append (k : Nat) (s : Str) :
    decimalValue (List.replicate k '0' ++ s) = decimalValue s := by
  induction k with
  | zero => rfl
  | succ n ih =>
    have h0 : decimalValue ('0' :: (List.replicate n '0' ++ s)) =
        decimalValue (List.replicate n '0' ++ s) := by
      simp [decimalValue]
    rw [List.replicate_succ, List.cons_append, h0, ih]

theorem decimalDigits_ne_nil (fuel u : Nat) : decimalDigits fuel u ≠ [] := by
  cases fuel with
  | zero => simp [decimalDigits]
  | succ k =>
    rw [decimalDigits]
    split <;> simp

theorem decimalDigits_length_of_lt_ten (fuel u : Nat) (h : u < 10) :
    (decimalDigits fuel u).length = 1 := by
  cases fuel with
  | zero => rfl
  | succ k => rw [decimalDigits, if_pos h]; rfl

theorem decimalDigits_head (fuel u : Nat) (h1 : 1 ≤ u) (h2 : u ≤ fuel) :
    (decimalDigits fuel u).head? ≠ some '0' := by
  induction fuel generalizing u with
  | zero => omega
  | succ k ih =>
    rw [decimalDigits]
    split
    · rename_i hlt
      intro e
      exact decDigit_ne_zero u h1 hlt (Option.some.inj e)
    · rename_i hge
      rcases hd : decimalDigits k (u / 10) with _ | ⟨c, cs⟩
      · exact absurd hd (decimalDigits_ne_nil _ _)
      · have := ih (u / 10) (by omega) (by omega)
        rw [hd] at this
        simpa using this

theorem decimalDigits_length_le (fuel u w : Nat) (hw : 1 ≤ w) (h : u < 10 ^ w) :
    (decimalDigits fuel u).length ≤ w := by
  induction fuel generalizing u w with
  | zero => simpa [decimalDigits] using hw
  | succ k ih =>
    rw [decimalDigits]
    split
    · simpa using hw
    · rename_i hge
      have hw2 : 2 ≤ w := by
        rcases Nat.lt_or_ge w 2 with hlt | hge2
        · have hw1 : w = 1 := by omega
          subst hw1
          omega
        · exact hge2
      have hdiv : u / 10 < 10 ^ (w - 1) := by
        have hpow : 10 ^ w = 10 ^ (w - 1) * 10 := by
          rw [← Nat.pow_succ]
          congr 1
          omega
        rw [hpow] at h
        exact Nat.div_lt_of_lt_mul (by rw [Nat.mul_comm]; exact h)
      have := ih (u / 10) (w - 1) (by omega) hdiv
      rw [List.length_append, List.length_singleton]
      omega

theorem appendInt_isPaddedDecimal (x w : Nat) (hw : 1 ≤ w) :
    IsPaddedDecimal w x (appendInt x w) := by
  refine ⟨appendInt_mem x w, ?_, ?_, ?_⟩
  · unfold appendInt
    rw [decimalValue_zeros_append, decimalValue_decimalDigits x x (Nat.le_refl x)]
  · unfold appendInt
    rw [List.length_append, List.length_replicate]
    omega
  · unfold appendInt
    rw [List.length_append, List.length_replicate]
    intro hlen
    have hzero : w - (decimalDigits x x).length = 0 := by omega
    rw [hzero, List.replicate_zero, List.nil_append]
    have hx : 10 ≤ x := by
      rcases Nat.lt_or_ge x 10 with hlt | hge
      · rw [decimalDigits_length_of_lt_ten x x hlt] at hlen
        omega
      · exact hge
    exact decimalDigits_head x x (by omega) (Nat.le_refl x)

theorem appendInt_length (x w : Nat) (hw : 1 ≤ w) (h : x < 10 ^ w) :
    (appendInt x w).length = w := by
  have := decimalDigits_length_le x x w hw h
  unfold appendInt
  rw [List.length_append, List.length_replicate]
  omega

theorem Format_length_of_IsCivil (t : Time) (h : t.IsCivil) : t.Format.length = 15 := by
  obtain ⟨hy, -, hm, -, hd, hh, hmi, hs⟩ := h
  unfold Time.Format
  simp only [List.length_append, List.length_cons]
  rw [appendInt_length t.year 4 (by omega) (by omega),
    appendInt_length t.month 2 (by omega) (by omega),
    appendInt_length t.day 2 (by omega) (by omega),
    appendInt_length t.hour 2 (by omega) (by omega),
    appendInt_length t.minute 2 (by omega) (by omega),
    appendInt_length t.second 2 (by omega) (by omega)]

theorem hexValue_hexDigit (n : Nat) : hexValue (hexDigit n) = n % 16 := by
  have h : n % 16 < 16 := Nat.mod_lt _ (by decide)
  unfold hexDigit
  generalize n % 16 = k at h
  interval_cases k <;> decide

theorem decodeHex_EncodeToString (bs : List Nat) :
    decodeHex (EncodeToString bs) = bs.map fun b => b % 256 := by
  induction bs with
  | nil => rfl
  | cons b rest ih =>
    simp only [EncodeToString, decodeHex, List.map_cons, ih, hexValue_hexDigit]
    congr 1
    omega

/-- C5: the session name is the label.  For a non-empty name `n` it is
`n-<randomHex>`, and so contains `n`; for the empty name it is
`<timestamp>-<randomHex>`.  Here `randomHex` is six lowercase hexadecimal
digits that decode to the three random bytes, and the timestamp is
`YYYYMMDD-HHMMSS`: the zero-padded decimal numerals of the year (four
digits), month, day, hour, minute and second (two digits each) of the clock
reading, fifteen characters for a civil reading. -/
theorem name_is_label (cfg : Config) (t : Time) (r : Option (Nat × Nat × Nat))
    (b cwd name : Str) :
    ∃ d, generateWorktreeDetails cfg ⟨.ok b, t, r, .ok cwd⟩ name = .ok d ∧
      d.Name = (if name = [] then t.Format else name) ++ "-".toList ++
        EncodeToString (randomBytes r) ∧
      Contains d.Name name = true ∧
      (EncodeToString (randomBytes r)).length = 6 ∧
      (∀ c ∈ EncodeToString (randomBytes r), c ∈ "0123456789abcdef".toList) ∧
      decodeHex (EncodeToString (randomBytes r)) = (randomBytes r).map (fun x => x % 256) ∧
      (∃ Y M D h mi s, t.Format = Y ++ M ++ D ++ "-".toList ++ h ++ mi ++ s ∧
        IsPaddedDecimal 4 t.year Y ∧ IsPaddedDecimal 2 t.month M ∧
        IsPaddedDecimal 2 t.day D ∧ IsPaddedDecimal 2 t.hour h ∧
        IsPaddedDecimal 2 t.minute mi ∧ IsPaddedDecimal 2 t.second s) ∧
      (t.IsCivil → t.Format.length = 15) := by
  refine ⟨_, generateWorktreeDetails_ok cfg t r b cwd name, ?_, ?_, ?_, EncodeToString_mem _,
    decodeHex_EncodeToString _, ?_, Format_length_of_IsCivil t⟩
  · simp [sessionLabel]
  · show Contains (sessionLabel t r name) name = true
    unfold sessionLabel
    by_cases hn : name = []
    · subst hn; rw [Contains_iff]; exact List.nil_infix
    · rw [if_neg hn]; exact Contains_append_right _ _
  · rw [EncodeToString_length, randomBytes_length]
  · refine ⟨appendInt t.year 4, appendInt t.month 2, appendInt t.day 2, appendInt t.hour 2,
      appendInt t.minute 2, appendInt t.second 2, ?_,
      appendInt_isPaddedDecimal _ _ (by decide), appendInt_isPaddedDecimal _ _ (by decide),
      appendInt_isPaddedDecimal _ _ (by decide), appendInt_isPaddedDecimal _ _ (by decide),
      appendInt_isPaddedDecimal _ _ (by decide), appendInt_isPaddedDecimal _ _ (by decide)⟩
    simp [Time.Format]

/-- The witness of C5: the empty name at midnight of 1 January 2024 with the
zero suffix gives the name `20240101-000000-000000`, whose timestamp has
fifteen characters. -/
theorem name_is_label_witness :
    ∃ d, generateWorktreeDetails DefaultConfig
        ⟨.ok "main".toList, newYear2024, none, .ok "/repo".toList⟩ [] = .ok d ∧
      d.Name = "20240101-000000-000000".toList ∧
      newYear2024.Format.length = 15 := by
  obtain ⟨d, hd, hname, -, -, -, -, -, hlen⟩ := name_is_label DefaultConfig newYear2024 none
    "main".toList "/repo".toList []
  refine ⟨d, hd, ?_, hlen (by unfold Time.IsCivil; decide)⟩
  rw [hname]
  decide

/-! ### `cleanup` -/

theorem cleanup_result {σ : Type} (m : Manager σ) (d : WorktreeDetails) (w : σ) :
    (m.cleanup d w).result = none := by
  unfold Manager.cleanup
  dsimp only
  split
  · split <;> rfl
  · rfl

theorem cleanup_trace {σ : Type} (m : Manager σ) (d : WorktreeDetails) (w : σ) :
    (m.cleanup d w).trace =
      [.git (.removeWorktree d.Path),
       .print (match (m.git.RemoveWorktree d.Path w).1 with
         | some err => .failedRemoveWorktree err
         | none => .removedWorktree d.Path),
       .git (.deleteBranch d.Branch false)] ++
      (match (m.git.DeleteBranch d.Branch false (m.git.RemoveWorktree d.Path w).2).1 with
        | none => [.print (.deletedBranch d.Branch)]
        | some _ =>
          [.git (.deleteBranch d.Branch true),
           .print (match (m.git.DeleteBranch d.Branch true
              (m.git.DeleteBranch d.Branch false (m.git.RemoveWorktree d.Path w).2).2).1 with
             | none => .deletedBranch d.Branch
             | some _ => .branchPreserved d.Branch)]) := by
  unfold Manager.cleanup
  dsimp only
  split
  · split <;> simp_all
  · simp_all

/-- C6: whatever the git client answers, `cleanup` issues the forced
`removeWorktree(path)`, then `deleteBranch(branch, false)` whether or not the
removal failed, then `deleteBranch(branch, true)` exactly when the safe delete
was rejected, and nothing else; it returns nil in every case; and it prints
`Branch preserved` exactly when both deletes fail. -/
theorem cleanup_requests_and_result {σ : Type} (m : Manager σ) (d : WorktreeDetails) (w : σ) :
    (m.cleanup d w).result = none ∧
    requests (m.cleanup d w).trace =
      [.removeWorktree d.Path, .deleteBranch d.Branch false] ++
        (if (m.git.DeleteBranch d.Branch false (m.git.RemoveWorktree d.Path w).2).1.isSome
          then [.deleteBranch d.Branch true] else []) ∧
    (Event.print (.branchPreserved d.Branch) ∈ (m.cleanup d w).trace ↔
      (m.git.DeleteBranch d.Branch false (m.git.RemoveWorktree d.Path w).2).1.isSome ∧
      (m.git.DeleteBranch d.Branch true
        (m.git.DeleteBranch d.Branch false (m.git.RemoveWorktree d.Path w).2).2).1.isSome) ∧
    (∀ e ∈ (m.cleanup d w).trace, ∀ p err, e ≠ .print (.failedRemove p err)) := by
  refine ⟨cleanup_result m d w, ?_, ?_, ?_⟩
  · rw [cleanup_trace]
    cases (m.git.DeleteBranch d.Branch false (m.git.RemoveWorktree d.Path w).2).1 <;>
      simp [requests]
  · rw [cleanup_trace]
    cases (m.git.RemoveWorktree d.Path w).1 <;>
    cases (m.git.DeleteBranch d.Branch false (m.git.RemoveWorktree d.Path w).2).1 <;>
    cases (m.git.DeleteBranch d.Branch true
        (m.git.DeleteBranch d.Branch false (m.git.RemoveWorktree d.Path w).2).2).1 <;>
      simp
  · intro e he p err hcontra
    subst hcontra
    rw [cleanup_trace] at he
    revert he
    cases (m.git.RemoveWorktree d.Path w).1 <;>
    cases (m.git.DeleteBranch d.Branch false (m.git.RemoveWorktree d.Path w).2).1 <;>
    cases (m.git.DeleteBranch d.Branch true
        (m.git.DeleteBranch d.Branch false (m.git.RemoveWorktree d.Path w).2).2).1 <;>
      simp

theorem cleanup_removedPaths {σ : Type} (m : Manager σ) (d : WorktreeDetails) (w : σ) :
    removedPaths (m.cleanup d w).trace = [d.Path] := by
  rw [cleanup_trace]
  cases (m.git.DeleteBranch d.Branch false (m.git.RemoveWorktree d.Path w).2).1 <;>
    simp [removedPaths]

theorem cleanup_safeDeletedBranches {σ : Type} (m : Manager σ) (d : WorktreeDetails) (w : σ) :
    safeDeletedBranches (m.cleanup d w).trace = [d.Branch] := by
  rw [cleanup_trace]
  cases (m.git.DeleteBranch d.Branch false (m.git.RemoveWorktree d.Path w).2).1 <;>
    simp [safeDeletedBranches]

theorem cleanup_reportedCounts {σ : Type} (m : Manager σ) (d : WorktreeDetails) (w : σ) :
    reportedCounts (m.cleanup d w).trace = [] := by
  rw [cleanup_trace]
  cases (m.git.RemoveWorktree d.Path w).1 <;>
  cases (m.git.DeleteBranch d.Branch false (m.git.RemoveWorktree d.Path w).2).1 <;>
  cases (m.git.DeleteBranch d.Branch true
      (m.git.DeleteBranch d.Branch false (m.git.RemoveWorktree d.Path w).2).2).1 <;>
    simp [reportedCounts]

theorem cleanup_preservedBranches {σ : Type} (m : Manager σ) (d : WorktreeDetails) (w : σ) :
    preservedBranches (m.cleanup d w).trace =
      if (m.git.DeleteBranch d.Branch false (m.git.RemoveWorktree d.Path w).2).1.isSome ∧
         (m.git.DeleteBranch d.Branch true
            (m.git.DeleteBranch d.Branch false (m.git.RemoveWorktree d.Path w).2).2).1.isSome
      then [d.Branch] else [] := by
  rw [cleanup_trace]
  cases (m.git.RemoveWorktree d.Path w).1 <;>
  cases (m.git.DeleteBranch d.Branch false (m.git.RemoveWorktree d.Path w).2).1 <;>
  cases (m.git.DeleteBranch d.Branch true
      (m.git.DeleteBranch d.Branch false (m.git.RemoveWorktree d.Path w).2).2).1 <;>
    simp [preservedBranches]

/-! ### `Remove` -/

theorem findTarget_none (name : Str) (wts : List Worktree)
    (h : ∀ x ∈ wts, matchesName name x = false) : findTarget name wts = none := by
  induction wts with
  | nil => rfl
  | cons wt rest ih =>
    have h1 : (Contains wt.Branch name || HasSuffix wt.Path name) = false :=
      h wt (List.mem_cons_self _ _)
    simp only [findTarget, h1]
    exact ih fun x hx => h x (List.mem_cons_of_mem _ hx)

theorem findTarget_first (name : Str) (pre post : List Worktree) (wt : Worktree)
    (hpre : ∀ x ∈ pre, matchesName name x = false) (hwt : matchesName name wt = true) :
    findTarget name (pre ++ wt :: post) = some wt := by
  induction pre with
  | nil =>
    have h1 : (Contains wt.Branch name || HasSuffix wt.Path name) = true := hwt
    simp [findTarget, h1]
  | cons x rest ih =>
    have h1 : (Contains x.Branch name || HasSuffix x.Path name) = false :=
      hpre x (List.mem_cons_self _ _)
    simp only [List.cons_append, findTarget, h1]
    exact ih fun y hy => hpre y (List.mem_cons_of_mem _ hy)

/-- C8: on a snapshot `wts`, `Remove` runs `cleanup` on exactly one record, the
first in list order whose branch contains `name` or whose path ends with
`name`, with that record's branch and path; and when no record satisfies the
condition it returns the not-found error having issued no request after the
listing. -/
theorem Remove_first_match_or_not_found {σ : Type} (m : Manager σ) (name : Str) (force : Bool)
    (w w1 : σ) (wts : List Worktree) (hl : m.git.ListWorktrees w = (.ok wts, w1)) :
    (∀ pre wt post, wts = pre ++ wt :: post →
      (∀ x ∈ pre, matchesName name x = false) → matchesName name wt = true →
      (m.Remove name force w).result = none ∧
      (m.Remove name force w).trace = .git .listWorktrees ::
        (m.cleanup { Name := name, Branch := wt.Branch, Path := wt.Path } w1).trace ∧
      (m.Remove name force w).world =
        (m.cleanup { Name := name, Branch := wt.Branch, Path := wt.Path } w1).world ∧
      removedPaths (m.Remove name force w).trace = [wt.Path] ∧
      safeDeletedBranches (m.Remove name force w).trace = [wt.Branch]) ∧
    ((∀ x ∈ wts, matchesName name x = false) →
      (m.Remove name force w).result = some (.notFound name) ∧
      (m.Remove name force w).trace = [.git .listWorktrees] ∧
      requests (m.Remove name force w).trace = [.listWorktrees] ∧
      (m.Remove name force w).world = w1) := by
  constructor
  · intro pre wt post hw hpre hwt
    have hf := findTarget_first name pre post wt hpre hwt
    rw [← hw] at hf
    have hR : m.Remove name force w =
        ⟨(m.cleanup { Name := name, Branch := wt.Branch, Path := wt.Path } w1).result,
         (m.cleanup { Name := name, Branch := wt.Branch, Path := wt.Path } w1).world,
         .git .listWorktrees ::
           (m.cleanup { Name := name, Branch := wt.Branch, Path := wt.Path } w1).trace⟩ := by
      simp only [Manager.Remove, hl, hf]
    rw [hR]
    refine ⟨cleanup_result _ _ _, rfl, rfl, ?_, ?_⟩
    · have := cleanup_removedPaths m { Name := name, Branch := wt.Branch, Path := wt.Path } w1
      simpa [removedPaths] using this
    · have := cleanup_safeDeletedBranches m
        { Name := name, Branch := wt.Branch, Path := wt.Path } w1
      simpa [safeDeletedBranches] using this
  · intro hnone
    have hf := findTarget_none name wts hnone
    have hR : m.Remove name force w = ⟨some (.notFound name), w1, [.git .listWorktrees]⟩ := by
      simp only [Manager.Remove, hl, hf]
    rw [hR]
    exact ⟨rfl, rfl, rfl, rfl⟩

/-- The witness of C8: a snapshot of the main worktree and two sessions, where
`b` matches the second session only. -/
theorem Remove_first_match_or_not_found_witness :
    (fixedClient [mainWorktree, sampleWorktree "a", sampleWorktree "b"]
        (fun _ => false) (fun _ => false)).ListWorktrees () =
      (.ok [mainWorktree, sampleWorktree "a", sampleWorktree "b"], ()) ∧
    ((fixedManager [mainWorktree, sampleWorktree "a", sampleWorktree "b"]
        (fun _ => false) (fun _ => false)).Remove "b-000000".toList false ()).result = none ∧
    removedPaths ((fixedManager [mainWorktree, sampleWorktree "a", sampleWorktree "b"]
        (fun _ => false) (fun _ => false)).Remove "b-000000".toList false ()).trace =
      ["/repo/.claude-mux/b-000000".toList] :=
  ⟨rfl,
   ((Remove_first_match_or_not_found
      (fixedManager [mainWorktree, sampleWorktree "a", sampleWorktree "b"]
        (fun _ => false) (fun _ => false)) "b-000000".toList false () ()
      [mainWorktree, sampleWorktree "a", sampleWorktree "b"] rfl).1
      [mainWorktree, sampleWorktree "a"] (sampleWorktree "b") [] rfl (by decide) (by decide)).1,
   ((Remove_first_match_or_not_found
      (fixedManager [mainWorktree, sampleWorktree "a", sampleWorktree "b"]
        (fun _ => false) (fun _ => false)) "b-000000".toList false () ()
      [mainWorktree, sampleWorktree "a", sampleWorktree "b"] rfl).1
      [mainWorktree, sampleWorktree "a"] (sampleWorktree "b") [] rfl (by decide)
      (by decide)).2.2.2.1⟩

theorem Remove_ignores_force {σ : Type} (m : Manager σ) (name : Str) (w : σ) :
    m.Remove name false w = m.Remove name true w := rfl

/-- C9 (the code departs from it): `Remove` with `force = false`, on a session
whose branch the safe delete rejects, matches the same record as with
`force = true` and still issues the forced delete of its branch; the two runs
are the same run. -/
theorem Remove_without_force_force_deletes :
    forceDeletedBranches
      ((fixedManager [mainWorktree, sampleWorktree "a"] (fun _ => true) (fun _ => false)).Remove
        "a-000000".toList false ()).trace = ["claude-mux-main-a-000000".toList] ∧
    requests
      ((fixedManager [mainWorktree, sampleWorktree "a"] (fun _ => true) (fun _ => false)).Remove
        "a-000000".toList false ()).trace =
      [.listWorktrees, .removeWorktree "/repo/.claude-mux/a-000000".toList,
       .deleteBranch "claude-mux-main-a-000000".toList false,
       .deleteBranch "claude-mux-main-a-000000".toList true] ∧
    printed
      ((fixedManager [mainWorktree, sampleWorktree "a"] (fun _ => true) (fun _ => false)).Remove
        "a-000000".toList false ()).trace =
      [.removedWorktree "/repo/.claude-mux/a-000000".toList,
       .deletedBranch "claude-mux-main-a-000000".toList] ∧
    (fixedManager [mainWorktree, sampleWorktree "a"] (fun _ => true) (fun _ => false)).Remove
        "a-000000".toList false () =
      (fixedManager [mainWorktree, sampleWorktree "a"] (fun _ => true) (fun _ => false)).Remove
        "a-000000".toList true () := by
  refine ⟨by decide, by decide, by decide, rfl⟩

/-! ### `List` and `Prune` -/

theorem listLoop_eq_filter (basePath : Str) (wts acc : List Worktree) :
    listLoop basePath acc wts = acc ++ wts.filter (isOwned basePath) := by
  induction wts generalizing acc with
  | nil => simp [listLoop]
  | cons wt rest ih =>
    by_cases h : (Contains wt.Branch muxTag || Contains wt.Path basePath) = true
    · have ho : isOwned basePath wt = true := h
      rw [listLoop, if_pos h, ih, List.filter_cons_of_pos ho, List.append_assoc]
      rfl
    · have ho : ¬ isOwned basePath wt = true := h
      rw [listLoop, if_neg h, ih, List.filter_cons_of_neg ho]

theorem renderedEntries_map_listEntryOf (wts : List Worktree) :
    renderedEntries (wts.map fun wt => Event.print (listEntryOf wt)) =
      wts.map fun wt => (wt.Branch, wt.Path, statusOf wt) := by
  induction wts with
  | nil => rfl
  | cons wt rest ih =>
    simp only [renderedEntries, List.map_cons, List.filterMap_cons] at ih ⊢
    rw [ih]
    rfl

theorem List_renderedEntries {σ : Type} (m : Manager σ) (w w1 : σ) (wts : List Worktree)
    (hl : m.git.ListWorktrees w = (.ok wts, w1)) :
    renderedEntries (m.List w).trace =
      (wts.filter (isOwned m.config.WorktreeBasePath)).map
        fun wt => (wt.Branch, wt.Path, statusOf wt) := by
  simp only [Manager.List, hl, listLoop_eq_filter, List.nil_append]
  split
  · rename_i h
    rw [List.length_eq_zero.1 h]
    rfl
  · exact renderedEntries_map_listEntryOf _

theorem pruneLoop_cons_owned {σ : Type} (m : Manager σ) (wt : Worktree) (rest : List Worktree)
    (count : Nat) (w : σ) (h : isOwned m.config.WorktreeBasePath wt = true) :
    pruneLoop m (wt :: rest) count w =
      ⟨(pruneLoop m rest (count + 1)
          (m.cleanup { Name := Base wt.Path, Branch := wt.Branch, Path := wt.Path } w).world).result,
       (pruneLoop m rest (count + 1)
          (m.cleanup { Name := Base wt.Path, Branch := wt.Branch, Path := wt.Path } w).world).world,
       (m.cleanup { Name := Base wt.Path, Branch := wt.Branch, Path := wt.Path } w).trace ++
       (pruneLoop m rest (count + 1)
          (m.cleanup { Name := Base wt.Path, Branch := wt.Branch, Path := wt.Path }
            w).world).trace⟩ := by
  have h1 : (Contains wt.Branch muxTag || Contains wt.Path m.config.WorktreeBasePath) = true := h
  rw [pruneLoop, if_pos h1]
  simp only [cleanup_result]

theorem pruneLoop_cons_not_owned {σ : Type} (m : Manager σ) (wt : Worktree)
    (rest : List Worktree) (count : Nat) (w : σ)
    (h : isOwned m.config.WorktreeBasePath wt = false) :
    pruneLoop m (wt :: rest) count w = pruneLoop m rest count w := by
  have h1 : ¬ (Contains wt.Branch muxTag || Contains wt.Path m.config.WorktreeBasePath) = true := by
    intro h2
    have h3 : isOwned m.config.WorktreeBasePath wt = true := h2
    rw [h] at h3
    cases h3
  rw [pruneLoop, if_neg h1]

theorem pruneLoop_result {σ : Type} (m : Manager σ) (wts : List Worktree) (count : Nat) (w : σ) :
    (pruneLoop m wts count w).result =
      count + (wts.filter (isOwned m.config.WorktreeBasePath)).length := by
  induction wts generalizing count w with
  | nil => rfl
  | cons wt rest ih =>
    cases h : isOwned m.config.WorktreeBasePath wt
    · rw [pruneLoop_cons_not_owned m wt rest count w h, ih,
        List.filter_cons_of_neg (by simp [h])]
    · rw [pruneLoop_cons_owned m wt rest count w h]
      simp only [ih, List.filter_cons_of_pos h, List.length_cons]
      omega

theorem pruneLoop_removedPaths {σ : Type} (m : Manager σ) (wts : List Worktree) (count : Nat)
    (w : σ) :
    removedPaths (pruneLoop m wts count w).trace =
      (wts.filter (isOwned m.config.WorktreeBasePath)).map Worktree.Path := by
  induction wts generalizing count w with
  | nil => rfl
  | cons wt rest ih =>
    cases h : isOwned m.config.WorktreeBasePath wt
    · rw [pruneLoop_cons_not_owned m wt rest count w h, ih,
        List.filter_cons_of_neg (by simp [h])]
    · rw [pruneLoop_cons_owned m wt rest count w h]
      have hc := cleanup_removedPaths m
        { Name := Base wt.Path, Branch := wt.Branch, Path := wt.Path } w
      simp only [removedPaths, List.filterMap_append] at hc ih ⊢
      rw [hc, ih, List.filter_cons_of_pos h]
      rfl

theorem pruneLoop_safeDeletedBranches {σ : Type} (m : Manager σ) (wts : List Worktree)
    (count : Nat) (w : σ) :
    safeDeletedBranches (pruneLoop m wts count w).trace =
      (wts.filter (isOwned m.config.WorktreeBasePath)).map Worktree.Branch := by
  induction wts generalizing count w with
  | nil => rfl
  | cons wt rest ih =>
    cases h : isOwned m.config.WorktreeBasePath wt
    · rw [pruneLoop_cons_not_owned m wt rest count w h, ih,
        List.filter_cons_of_neg (by simp [h])]
    · rw [pruneLoop_cons_owned m wt rest count w h]
      have hc := cleanup_safeDeletedBranches m
        { Name := Base wt.Path, Branch := wt.Branch, Path := wt.Path } w
      simp only [safeDeletedBranches, List.filterMap_append] at hc ih ⊢
      rw [hc, ih, List.filter_cons_of_pos h]
      rfl

theorem pruneLoop_reportedCounts {σ : Type} (m : Manager σ) (wts : List Worktree)
    (count : Nat) (w : σ) :
    reportedCounts (pruneLoop m wts count w).trace = [] := by
  induction wts generalizing count w with
  | nil => rfl
  | cons wt rest ih =>
    cases h : isOwned m.config.WorktreeBasePath wt
    · rw [pruneLoop_cons_not_owned m wt rest count w h, ih]
    · rw [pruneLoop_cons_owned m wt rest count w h]
      have hc := cleanup_reportedCounts m
        { Name := Base wt.Path, Branch := wt.Branch, Path := wt.Path } w
      simp only [reportedCounts, List.filterMap_append] at hc ih ⊢
      rw [hc, ih]
      rfl

theorem Prune_eq {σ : Type} (m : Manager σ) (w w1 : σ) (wts : List Worktree)
    (hl : m.git.ListWorktrees w = (.ok wts, w1)) :
    m.Prune w = ⟨none, (pruneLoop m wts 0 w1).world,
      .git .listWorktrees :: (pruneLoop m wts 0 w1).trace ++
        [.print (.removedCount (pruneLoop m wts 0 w1).result)]⟩ := by
  simp only [Manager.Prune, hl]

/-- C10: on every snapshot and for every base path, the records `List` renders
and the records `Prune` runs `cleanup` on (the paths it asks to remove and the
branches it asks to delete) are the same sequence: the records of the
snapshot, in order, whose branch contains `claude-mux-` or whose path contains
the base path. -/
theorem List_and_Prune_select_owned {σ : Type} (m : Manager σ) (w w1 : σ) (wts : List Worktree)
    (hl : m.git.ListWorktrees w = (.ok wts, w1)) :
    renderedEntries (m.List w).trace =
      (wts.filter (isOwned m.config.WorktreeBasePath)).map
        (fun wt => (wt.Branch, wt.Path, statusOf wt)) ∧
    removedPaths (m.Prune w).trace =
      (wts.filter (isOwned m.config.WorktreeBasePath)).map Worktree.Path ∧
    safeDeletedBranches (m.Prune w).trace =
      (wts.filter (isOwned m.config.WorktreeBasePath)).map Worktree.Branch ∧
    (∀ wt, isOwned m.config.WorktreeBasePath wt = true ↔
      (muxTag <:+: wt.Branch ∨ m.config.WorktreeBasePath <:+: wt.Path)) := by
  refine ⟨List_renderedEntries m w w1 wts hl, ?_, ?_, ?_⟩
  · rw [Prune_eq m w w1 wts hl]
    have h := pruneLoop_removedPaths m wts 0 w1
    simp only [removedPaths, List.filterMap_append, List.filterMap_cons,
      List.filterMap_nil, List.append_nil] at h ⊢
    exact h
  · rw [Prune_eq m w w1 wts hl]
    have h := pruneLoop_safeDeletedBranches m wts 0 w1
    simp only [safeDeletedBranches, List.filterMap_append, List.filterMap_cons,
      List.filterMap_nil, List.append_nil] at h ⊢
    exact h
  · intro wt
    simp [isOwned, Contains_iff]

/-- The witness of C10: the snapshot of the main worktree and three sessions. -/
theorem List_and_Prune_select_owned_witness :
    pruneFixture.git.ListWorktrees () = (.ok threeSessions, ()) ∧
    renderedEntries (pruneFixture.List ()).trace =
      (threeSessions.filter (isOwned pruneFixture.config.WorktreeBasePath)).map
        (fun wt => (wt.Branch, wt.Path, statusOf wt)) ∧
    removedPaths (pruneFixture.Prune ()).trace =
      (threeSessions.filter (isOwned pruneFixture.config.WorktreeBasePath)).map Worktree.Path :=
  ⟨rfl, (List_and_Prune_select_owned pruneFixture () () threeSessions rfl).1,
    (List_and_Prune_select_owned pruneFixture () () threeSessions rfl).2.1⟩

theorem pruneLoop_preservedBranches {σ : Type} (m : Manager σ) (fails : Str → Bool)
    (hdel : ∀ br f w, (m.git.DeleteBranch br f w).1.isSome = fails br)
    (wts : List Worktree) (count : Nat) (w : σ) :
    preservedBranches (pruneLoop m wts count w).trace =
      ((wts.filter (isOwned m.config.WorktreeBasePath)).filter
        fun wt => fails wt.Branch).map Worktree.Branch := by
  induction wts generalizing count w with
  | nil => rfl
  | cons wt rest ih =>
    cases h : isOwned m.config.WorktreeBasePath wt
    · rw [pruneLoop_cons_not_owned m wt rest count w h, ih,
        List.filter_cons_of_neg (by simp [h])]
    · rw [pruneLoop_cons_owned m wt rest count w h]
      have hc := cleanup_preservedBranches m
        { Name := Base wt.Path, Branch := wt.Branch, Path := wt.Path } w
      simp only [hdel, and_self] at hc
      simp only [preservedBranches, List.filterMap_append] at hc ih ⊢
      rw [hc, ih, List.filter_cons_of_pos h]
      cases hf : fails wt.Branch <;> simp [hf]

theorem cleanup_failureReports {σ : Type} (m : Manager σ) (d : WorktreeDetails) (w : σ)
    (hrm : (m.git.RemoveWorktree d.Path w).1 = none) :
    failureReports (m.cleanup d w).trace = [] := by
  rw [cleanup_trace, hrm]
  cases (m.git.DeleteBranch d.Branch false (m.git.RemoveWorktree d.Path w).2).1 <;>
  cases (m.git.DeleteBranch d.Branch true
      (m.git.DeleteBranch d.Branch false (m.git.RemoveWorktree d.Path w).2).2).1 <;>
    simp [failureReports]

theorem pruneLoop_failureReports {σ : Type} (m : Manager σ)
    (hrm : ∀ p w, (m.git.RemoveWorktree p w).1 = none)
    (wts : List Worktree) (count : Nat) (w : σ) :
    failureReports (pruneLoop m wts count w).trace = [] := by
  induction wts generalizing count w with
  | nil => rfl
  | cons wt rest ih =>
    cases h : isOwned m.config.WorktreeBasePath wt
    · rw [pruneLoop_cons_not_owned m wt rest count w h, ih]
    · rw [pruneLoop_cons_owned m wt rest count w h]
      have hc := cleanup_failureReports m
        { Name := Base wt.Path, Branch := wt.Branch, Path := wt.Path } w (hrm _ _)
      simp only [failureReports, List.filterMap_append] at hc ih ⊢
      rw [hc, ih]
      rfl

/-- C7, counterexample: over the main worktree and three sessions, where the
deletion of one session's branch fails with and without force and everything
else succeeds, `Prune` reports three removed worktrees, not two (with one
branch preserved and a nil error). -/
theorem Prune_reports_three_not_two :
    (threeSessions.filter (isOwned pruneFixture.config.WorktreeBasePath)).length = 3 ∧
    ((threeSessions.filter (isOwned pruneFixture.config.WorktreeBasePath)).filter
      fun wt => failsForB wt.Branch).length = 1 ∧
    reportedCounts (pruneFixture.Prune ()).trace = [3] ∧
    ¬ (2 ∈ reportedCounts (pruneFixture.Prune ()).trace) ∧
    preservedBranches (pruneFixture.Prune ()).trace = ["claude-mux-main-b-000000".toList] ∧
    (pruneFixture.Prune ()).result = none := by
  refine ⟨by decide, by decide, by decide, by decide, by decide, rfl⟩

theorem pruneLoop_filter {σ : Type} (m : Manager σ) (wts : List Worktree) (count : Nat) (w : σ) :
    pruneLoop m wts count w =
      pruneLoop m (wts.filter (isOwned m.config.WorktreeBasePath)) count w := by
  induction wts generalizing count w with
  | nil => rfl
  | cons wt rest ih =>
    cases h : isOwned m.config.WorktreeBasePath wt
    · rw [pruneLoop_cons_not_owned m wt rest count w h, List.filter_cons_of_neg (by simp [h]), ih]
    · rw [List.filter_cons_of_pos h, pruneLoop_cons_owned m wt rest count w h,
        pruneLoop_cons_owned m wt _ count w h, ih]

theorem cleanup_preservedBranches_of {σ : Type} (m : Manager σ) (d : WorktreeDetails) (w : σ) :
    preservedBranches (m.cleanup d w).trace =
      if bothDeletesFail m d w = true then [d.Branch] else [] := by
  rw [cleanup_preservedBranches]
  simp only [bothDeletesFail, Bool.and_eq_true]

theorem cleanup_failureReports_of {σ : Type} (m : Manager σ) (d : WorktreeDetails) (w : σ)
    (h : removalFails m d w = false) : failureReports (m.cleanup d w).trace = [] := by
  apply cleanup_failureReports
  unfold removalFails at h
  cases hr : (m.git.RemoveWorktree d.Path w).1 with
  | none => rfl
  | some e => rw [hr] at h; cases h

/-- C7, amended: over a snapshot with three manager-owned worktrees `a`, `b`,
`c`, in a run where the removal of each worktree succeeds and the branch
deletion fails in both modes (safe, then forced) for exactly one of the
three, `Prune` requests the removal of all three, reports three removed
worktrees and one preserved branch, prints no failure message, and returns
nil.  The outcomes are those of the requests as `Prune` issues them, each in
the state the run has reached. -/
theorem Prune_three_owned_one_preserved {σ : Type} (m : Manager σ) (w w1 : σ)
    (wts : List Worktree) (a b c : Worktree)
    (hl : m.git.ListWorktrees w = (.ok wts, w1))
    (howned : wts.filter (isOwned m.config.WorktreeBasePath) = [a, b, c])
    (hrm : removalFails m (pruneDetails a) w1 = false ∧
      removalFails m (pruneDetails b) (afterCleanup m a w1) = false ∧
      removalFails m (pruneDetails c) (afterCleanup m b (afterCleanup m a w1)) = false)
    (hone : ([bothDeletesFail m (pruneDetails a) w1,
        bothDeletesFail m (pruneDetails b) (afterCleanup m a w1),
        bothDeletesFail m (pruneDetails c) (afterCleanup m b (afterCleanup m a w1))].count
          true) = 1) :
    (m.Prune w).result = none ∧
    reportedCounts (m.Prune w).trace = [3] ∧
    removedPaths (m.Prune w).trace = [a.Path, b.Path, c.Path] ∧
    (preservedBranches (m.Prune w).trace).length = 1 ∧
    failureReports (m.Prune w).trace = [] := by
  have hmem : ∀ x ∈ [a, b, c], isOwned m.config.WorktreeBasePath x = true := by
    intro x hx
    rw [← howned] at hx
    exact (List.mem_filter.1 hx).2
  have ha := hmem a (by simp)
  have hb := hmem b (by simp)
  have hc := hmem c (by simp)
  have hrun : pruneLoop m wts 0 w1 =
      ⟨3, afterCleanup m c (afterCleanup m b (afterCleanup m a w1)),
        (m.cleanup (pruneDetails a) w1).trace ++
        ((m.cleanup (pruneDetails b) (afterCleanup m a w1)).trace ++
        ((m.cleanup (pruneDetails c) (afterCleanup m b (afterCleanup m a w1))).trace ++ []))⟩ := by
    rw [pruneLoop_filter, howned, pruneLoop_cons_owned m a _ 0 w1 ha,
      pruneLoop_cons_owned m b _ 1 _ hb, pruneLoop_cons_owned m c _ 2 _ hc]
    rfl
  obtain ⟨hra, hrb, hrc⟩ := hrm
  rw [Prune_eq m w w1 wts hl, hrun]
  refine ⟨rfl, ?_, ?_, ?_, ?_⟩
  · have h1 := cleanup_reportedCounts m (pruneDetails a) w1
    have h2 := cleanup_reportedCounts m (pruneDetails b) (afterCleanup m a w1)
    have h3 := cleanup_reportedCounts m (pruneDetails c)
      (afterCleanup m b (afterCleanup m a w1))
    simp only [reportedCounts, List.filterMap_append, List.filterMap_cons,
      List.filterMap_nil] at h1 h2 h3 ⊢
    rw [h1, h2, h3]
    rfl
  · have h1 := cleanup_removedPaths m (pruneDetails a) w1
    have h2 := cleanup_removedPaths m (pruneDetails b) (afterCleanup m a w1)
    have h3 := cleanup_removedPaths m (pruneDetails c)
      (afterCleanup m b (afterCleanup m a w1))
    simp only [removedPaths, List.filterMap_append, List.filterMap_cons,
      List.filterMap_nil] at h1 h2 h3 ⊢
    rw [h1, h2, h3]
    rfl
  · have h1 := cleanup_preservedBranches_of m (pruneDetails a) w1
    have h2 := cleanup_preservedBranches_of m (pruneDetails b) (afterCleanup m a w1)
    have h3 := cleanup_preservedBranches_of m (pruneDetails c)
      (afterCleanup m b (afterCleanup m a w1))
    simp only [preservedBranches, List.filterMap_append, List.filterMap_cons,
      List.filterMap_nil] at h1 h2 h3 ⊢
    rw [h1, h2, h3]
    revert hone
    cases bothDeletesFail m (pruneDetails a) w1 <;>
    cases bothDeletesFail m (pruneDetails b) (afterCleanup m a w1) <;>
    cases bothDeletesFail m (pruneDetails c) (afterCleanup m b (afterCleanup m a w1)) <;>
      simp
  · have h1 := cleanup_failureReports_of m (pruneDetails a) w1 hra
    have h2 := cleanup_failureReports_of m (pruneDetails b) (afterCleanup m a w1) hrb
    have h3 := cleanup_failureReports_of m (pruneDetails c)
      (afterCleanup m b (afterCleanup m a w1)) hrc
    simp only [failureReports, List.filterMap_append, List.filterMap_cons,
      List.filterMap_nil] at h1 h2 h3 ⊢
    rw [h1, h2, h3]
    rfl

/-- The witness of C7 (amended): the main worktree and three sessions, where
every safe delete is rejected and the forced delete fails for the branch of
session `b` only. -/
theorem Prune_three_owned_one_preserved_witness :
    reportedCounts ((fixedManager threeSessions (fun _ => true) failsForB).Prune ()).trace =
      [3] ∧
    (preservedBranches
      ((fixedManager threeSessions (fun _ => true) failsForB).Prune ()).trace).length = 1 :=
  ⟨(Prune_three_owned_one_preserved (fixedManager threeSessions (fun _ => true) failsForB) () ()
      threeSessions (sampleWorktree "a") (sampleWorktree "b") (sampleWorktree "c")
      rfl (by decide) (by decide) (by decide)).2.1,
   (Prune_three_owned_one_preserved (fixedManager threeSessions (fun _ => true) failsForB) () ()
      threeSessions (sampleWorktree "a") (sampleWorktree "b") (sampleWorktree "c")
      rfl (by decide) (by decide) (by decide)).2.2.2.1⟩

/-! ### `filepath.Clean` and `filepath.Join` -/

theorem splitSlash_ne_nil (s : Str) : splitSlash s ≠ [] := by
  cases s with
  | nil => simp [splitSlash]
  | cons c cs =>
    unfold splitSlash
    split
    · simp
    · split <;> simp

theorem splitSlash_append_slash (a b : Str) :
    splitSlash (a ++ '/' :: b) = splitSlash a ++ splitSlash b := by
  induction a with
  | nil => simp [splitSlash]
  | cons c a ih =>
    by_cases hc : c = '/'
    · simp [splitSlash, hc, ih]
    · rcases hsp : splitSlash a with _ | ⟨seg, rest⟩
      · exact absurd hsp (splitSlash_ne_nil a)
      · simp [splitSlash, hc, ih, hsp]

theorem splitSlash_of_not_mem (s : Str) (h : '/' ∉ s) : splitSlash s = [s] := by
  induction s with
  | nil => rfl
  | cons c cs ih =>
    have hc : c ≠ '/' := fun e => h (e ▸ List.mem_cons_self _ _)
    have hcs : '/' ∉ cs := fun e => h (List.mem_cons_of_mem _ e)
    simp [splitSlash, hc, ih hcs]

theorem not_mem_of_mem_splitSlash (s : Str) : ∀ seg ∈ splitSlash s, '/' ∉ seg := by
  induction s with
  | nil => simp [splitSlash]
  | cons c cs ih =>
    by_cases hc : c = '/'
    · intro seg hseg
      simp only [splitSlash, hc, if_true, List.mem_cons] at hseg
      rcases hseg with rfl | hseg
      · simp
      · exact ih seg hseg
    · rcases hsp : splitSlash cs with _ | ⟨seg0, rest⟩
      · exact absurd hsp (splitSlash_ne_nil cs)
      · intro seg hseg
        rw [hsp] at ih
        simp only [splitSlash, hc, if_false, hsp, List.mem_cons] at hseg
        rcases hseg with rfl | hseg
        · intro hmem
          rcases List.mem_cons.1 hmem with e | hmem
          · exact hc e.symm
          · exact ih seg0 (List.mem_cons_self _ _) hmem
        · exact ih seg (List.mem_cons_of_mem _ hseg)

theorem joinSlash_cons_cons (e e1 : Str) (es : List Str) :
    joinSlash (e :: e1 :: es) = e ++ '/' :: joinSlash (e1 :: es) := rfl

theorem splitSlash_joinSlash (xs : List Str) (hne : xs ≠ []) (h : ∀ x ∈ xs, '/' ∉ x) :
    splitSlash (joinSlash xs) = xs := by
  induction xs with
  | nil => exact absurd rfl hne
  | cons x rest ih =>
    cases rest with
    | nil => exact splitSlash_of_not_mem x (h x (List.mem_cons_self _ _))
    | cons y ys =>
      rw [joinSlash_cons_cons, splitSlash_append_slash,
        splitSlash_of_not_mem x (h x (List.mem_cons_self _ _)),
        ih (by simp) fun z hz => h z (List.mem_cons_of_mem _ hz)]
      rfl

theorem joinSlash_concat (xs : List Str) (l : Str) :
    joinSlash (xs ++ [l]) = joinLead xs ++ l := by
  induction xs with
  | nil => rfl
  | cons x rest ih =>
    cases rest with
    | nil => simp [joinSlash, joinLead]
    | cons y ys =>
      have ih1 : joinSlash (y :: (ys ++ [l])) = joinLead (y :: ys) ++ l := ih
      rw [List.cons_append, List.cons_append, joinSlash_cons_cons, ih1]
      simp [joinLead, joinSlash_cons_cons]

theorem cleanStep_ordinary (rooted : Bool) (stack : List Str) (seg : Str) (h : Ordinary seg) :
    cleanStep rooted stack seg = seg :: stack := by
  obtain ⟨h1, h2, h3, -⟩ := h
  simp [cleanStep, h1, h2, h3]

theorem foldl_cleanStep_ordinary (rooted : Bool) (xs stack : List Str)
    (h : ∀ x ∈ xs, Ordinary x) :
    xs.foldl (cleanStep rooted) stack = xs.reverse ++ stack := by
  induction xs generalizing stack with
  | nil => rfl
  | cons x rest ih =>
    rw [List.foldl_cons, cleanStep_ordinary rooted stack x (h x (List.mem_cons_self _ _)),
      ih _ fun y hy => h y (List.mem_cons_of_mem _ hy)]
    simp

theorem cleanStep_rooted_ordinary (stack : List Str) (seg : Str)
    (hst : ∀ x ∈ stack, Ordinary x) (hseg : '/' ∉ seg) :
    ∀ x ∈ cleanStep true stack seg, Ordinary x := by
  unfold cleanStep
  by_cases h1 : seg = [] ∨ seg = ['.']
  · rw [if_pos h1]; exact hst
  · rw [if_neg h1]
    by_cases h2 : seg = ['.', '.']
    · rw [if_pos h2]
      cases stack with
      | nil => simp
      | cons top rest =>
        by_cases h3 : top = ['.', '.']
        · simp only [h3, if_true]
          exact fun x hx => hst x (by simpa [h3] using hx)
        · simp only [h3, if_false]
          exact fun x hx => hst x (List.mem_cons_of_mem _ hx)
    · rw [if_neg h2]
      intro x hx
      rcases List.mem_cons.1 hx with rfl | hx
      · exact ⟨fun e => h1 (Or.inl e), fun e => h1 (Or.inr e), h2, hseg⟩
      · exact hst x hx

theorem foldl_cleanStep_rooted_ordinary (segs stack : List Str)
    (hst : ∀ x ∈ stack, Ordinary x) (hsegs : ∀ seg ∈ segs, '/' ∉ seg) :
    ∀ x ∈ segs.foldl (cleanStep true) stack, Ordinary x := by
  induction segs generalizing stack with
  | nil => exact hst
  | cons seg rest ih =>
    rw [List.foldl_cons]
    exact ih _ (cleanStep_rooted_ordinary stack seg hst (hsegs seg (List.mem_cons_self _ _)))
      fun y hy => hsegs y (List.mem_cons_of_mem _ hy)

theorem rootedStack_ordinary (path : Str) : ∀ x ∈ rootedStack path, Ordinary x :=
  foldl_cleanStep_rooted_ordinary _ [] (by simp) (not_mem_of_mem_splitSlash path)

theorem IsAbs_iff (p : Str) : IsAbs p = true ↔ ∃ rest, p = '/' :: rest := by
  unfold IsAbs
  rw [HasPrefix_iff]
  constructor
  · rintro ⟨t, ht⟩
    exact ⟨t, ht.symm⟩
  · rintro ⟨rest, rfl⟩
    exact ⟨rest, rfl⟩

theorem IsAbs_cons (x : Str) : IsAbs ('/' :: x) = true := (IsAbs_iff _).2 ⟨x, rfl⟩

theorem Join_pair_of_ne (x l : Str) (h : x ≠ []) : Join [x, l] = Clean (x ++ '/' :: l) := by
  simp [Join, joinSlash, h]

theorem Join_triple_of_ne (x y l : Str) (h : x ≠ []) :
    Join [x, y, l] = Clean ((x ++ '/' :: y) ++ '/' :: l) := by
  simp [Join, joinSlash, h]

theorem Clean_of_IsAbs (p : Str) (h : IsAbs p = true) :
    Clean p = '/' :: joinSlash (rootedStack p).reverse := by
  obtain ⟨rest, rfl⟩ := (IsAbs_iff p).1 h
  simp [Clean, renderClean, rootedStack, h]

theorem IsAbs_Clean (p : Str) (h : IsAbs p = true) : IsAbs (Clean p) = true := by
  rw [Clean_of_IsAbs p h]
  exact IsAbs_cons _

theorem IsAbs_append (p q : Str) (h : IsAbs p = true) : IsAbs (p ++ q) = true := by
  obtain ⟨rest, rfl⟩ := (IsAbs_iff p).1 h
  exact IsAbs_cons _

theorem rootedStack_Clean (p : Str) (h : IsAbs p = true) :
    rootedStack (Clean p) = rootedStack p := by
  rw [Clean_of_IsAbs p h]
  have hord := rootedStack_ordinary p
  generalize rootedStack p = S at hord
  unfold rootedStack
  have hsp : splitSlash ('/' :: joinSlash S.reverse) = [] :: splitSlash (joinSlash S.reverse) := by
    simp [splitSlash]
  rw [hsp, List.foldl_cons]
  have h0 : cleanStep true [] [] = [] := by simp [cleanStep]
  rw [h0]
  by_cases hS : S = []
  · subst hS
    simp [joinSlash, splitSlash, cleanStep]
  · rw [splitSlash_joinSlash S.reverse (by simpa using hS)
      (fun x hx => (hord x (List.mem_reverse.1 hx)).2.2.2),
      foldl_cleanStep_ordinary true S.reverse [] (fun x hx => hord x (List.mem_reverse.1 hx))]
    simp

theorem rootedStack_append_slash (p l : Str) :
    rootedStack (p ++ '/' :: l) = (splitSlash l).foldl (cleanStep true) (rootedStack p) := by
  unfold rootedStack
  rw [splitSlash_append_slash, List.foldl_append]

theorem Clean_Clean_append (p l : Str) (h : IsAbs p = true) :
    Clean (Clean p ++ '/' :: l) = Clean (p ++ '/' :: l) := by
  rw [Clean_of_IsAbs _ (IsAbs_append _ _ (IsAbs_Clean p h)), Clean_of_IsAbs _ (IsAbs_append _ _ h),
    rootedStack_append_slash, rootedStack_append_slash, rootedStack_Clean p h]

theorem Join_Join_of_IsAbs (cwd base l : Str) (h : IsAbs cwd = true) :
    Join [Join [cwd, base], l] = Join [cwd, base, l] := by
  have hcwd : cwd ≠ [] := by
    obtain ⟨rest, rfl⟩ := (IsAbs_iff cwd).1 h
    simp
  have h1 : IsAbs (cwd ++ '/' :: base) = true := IsAbs_append _ _ h
  have hne : Clean (cwd ++ '/' :: base) ≠ [] := by
    rw [Clean_of_IsAbs _ h1]; simp
  rw [Join_pair_of_ne cwd base hcwd, Join_triple_of_ne cwd base l hcwd,
    Join_pair_of_ne _ l hne, Clean_Clean_append _ l h1]

theorem IsAbs_of_not_mem (l : Str) (h : '/' ∉ l) : IsAbs l = false := by
  cases hl : IsAbs l
  · rfl
  · obtain ⟨rest, rfl⟩ := (IsAbs_iff l).1 hl
    exact absurd (List.mem_cons_self _ _) h

theorem IsAbs_append_of_ne (p q : Str) (h : p ≠ []) : IsAbs (p ++ q) = IsAbs p := by
  cases p with
  | nil => exact absurd rfl h
  | cons c cs => simp [IsAbs, HasPrefix, List.isPrefixOf]

theorem Join_ordinary (base l : Str) (hl : Ordinary l) : Join [base, l] = pathLead base ++ l := by
  have hsplit : splitSlash l = [l] := splitSlash_of_not_mem l hl.2.2.2
  by_cases hb : base = []
  · subst hb
    have habs : IsAbs l = false := IsAbs_of_not_mem l hl.2.2.2
    simp [Join, joinSlash, pathLead, hl.1, Clean, habs, hsplit, cleanStep_ordinary _ _ _ hl,
      renderClean]
  · rw [Join_pair_of_ne base l hb]
    have hne : base ++ '/' :: l ≠ [] := by simp [hb]
    have hstep : ∀ r, (splitSlash (base ++ '/' :: l)).foldl (cleanStep r) [] =
        l :: (splitSlash base).foldl (cleanStep r) [] := by
      intro r
      rw [splitSlash_append_slash, List.foldl_append, hsplit, List.foldl_cons, List.foldl_nil,
        cleanStep_ordinary _ _ _ hl]
    unfold Clean pathLead
    rw [if_neg hne, if_neg hb]
    simp only [IsAbs_append_of_ne base _ hb]
    cases hr : IsAbs base
    · simp only [hstep, renderClean, Bool.false_eq_true, if_false, List.reverse_cons,
        joinSlash_concat]
      simp
    · simp only [hstep, renderClean, if_true, List.reverse_cons, joinSlash_concat]
      simp

theorem Join_ordinary_inj (base l1 l2 : Str) (h1 : Ordinary l1) (h2 : Ordinary l2)
    (h : Join [base, l1] = Join [base, l2]) : l1 = l2 := by
  rw [Join_ordinary base l1 h1, Join_ordinary base l2 h2] at h
  exact List.append_cancel_left h

theorem slash_not_mem_EncodeToString (bs : List Nat) : '/' ∉ EncodeToString bs :=
  fun h => absurd (EncodeToString_mem bs _ h) (by decide)

theorem space_not_mem_EncodeToString (bs : List Nat) : ' ' ∉ EncodeToString bs :=
  fun h => absurd (EncodeToString_mem bs _ h) (by decide)

theorem not_mem_Format (t : Time) (c : Char) (hc : c ∉ "0123456789-".toList) :
    c ∉ t.Format := by
  have key : ∀ x w, c ∉ appendInt x w := by
    intro x w hmem
    apply hc
    have := appendInt_mem x w c hmem
    simp only [String.toList, List.mem_cons] at this ⊢
    tauto
  have k2 : c ≠ '-' := by
    intro e
    apply hc
    rw [e]
    decide
  intro h
  simp only [Time.Format, List.mem_append, List.mem_cons] at h
  rcases h with ((h | h) | h) | h | (h | h) | h
  · exact key _ _ h
  · exact key _ _ h
  · exact key _ _ h
  · exact k2 h
  · exact key _ _ h
  · exact key _ _ h
  · exact key _ _ h

theorem Ordinary_label (x : Str) (bs : List Nat) (hx : '/' ∉ x) (hbs : 1 ≤ bs.length) :
    Ordinary (x ++ '-' :: EncodeToString bs) := by
  have hlen : 3 ≤ (x ++ '-' :: EncodeToString bs).length := by
    rw [List.length_append, List.length_cons, EncodeToString_length]
    omega
  refine ⟨?_, ?_, ?_, ?_⟩
  · intro e; rw [e] at hlen; simp at hlen
  · intro e; rw [e] at hlen; simp at hlen
  · intro e; rw [e] at hlen; simp at hlen
  · intro hmem
    rcases List.mem_append.1 hmem with h | h
    · exact hx h
    · rcases List.mem_cons.1 h with h | h
      · exact absurd h (by decide)
      · exact slash_not_mem_EncodeToString bs h

theorem Ordinary_sessionLabel (t : Time) (r : Option (Nat × Nat × Nat)) (name : Str)
    (h : '/' ∉ name) : Ordinary (sessionLabel t r name) := by
  unfold sessionLabel
  apply Ordinary_label
  · by_cases hn : name = []
    · rw [if_pos hn]; exact not_mem_Format t '/' (by decide)
    · rw [if_neg hn]; exact h
  · rw [randomBytes_length]; omega

/-- With the working directory absolute, the path `generateWorktreeDetails`
produces is absolute. -/
theorem path_IsAbs (cfg : Config) (t : Time) (r : Option (Nat × Nat × Nat)) (cwd name : Str)
    (hcwd : IsAbs cwd = true) :
    IsAbs (resolvedBase cfg cwd) = true ∧
    IsAbs (Join [resolvedBase cfg cwd, sessionLabel t r name]) = true := by
  have hbase : IsAbs (resolvedBase cfg cwd) = true := by
    unfold resolvedBase
    by_cases ha : IsAbs cfg.WorktreeBasePath = true
    · rw [if_pos ha]; exact ha
    · rw [if_neg ha]
      have hne : cwd ≠ [] := by
        obtain ⟨rest, rfl⟩ := (IsAbs_iff cwd).1 hcwd
        simp
      rw [Join_pair_of_ne cwd _ hne]
      exact IsAbs_Clean _ (IsAbs_append _ _ hcwd)
  refine ⟨hbase, ?_⟩
  have hne : resolvedBase cfg cwd ≠ [] := by
    obtain ⟨rest, hrest⟩ := (IsAbs_iff _).1 hbase
    rw [hrest]; simp
  rw [Join_pair_of_ne _ _ hne]
  exact IsAbs_Clean _ (IsAbs_append _ _ hbase)

theorem Join_of_clean_cwd (cwd a l : Str) (hcwd : IsAbs cwd = true) (hclean : Clean cwd = cwd)
    (hroot : cwd ≠ ['/']) (ha : Ordinary a) (hl : Ordinary l) :
    Join [cwd, a, l] = cwd ++ '/' :: a ++ '/' :: l := by
  have hne : cwd ≠ [] := by
    obtain ⟨rest, rfl⟩ := (IsAbs_iff cwd).1 hcwd
    simp
  have hc := Clean_of_IsAbs cwd hcwd
  rw [hclean] at hc
  have hS : (rootedStack cwd).reverse ≠ [] := by
    intro e
    rw [e] at hc
    exact hroot hc
  rw [Join_triple_of_ne cwd a l hne, Clean_of_IsAbs _ (IsAbs_append _ _ (IsAbs_append _ _ hcwd)),
    rootedStack_append_slash, rootedStack_append_slash,
    splitSlash_of_not_mem a ha.2.2.2, splitSlash_of_not_mem l hl.2.2.2]
  simp only [List.foldl_cons, List.foldl_nil, cleanStep_ordinary _ _ _ ha,
    cleanStep_ordinary _ _ _ hl, List.reverse_cons, joinSlash_concat]
  have hlead : joinLead ((rootedStack cwd).reverse ++ [a]) =
      joinSlash (rootedStack cwd).reverse ++ '/' :: a ++ ['/'] := by
    have : (rootedStack cwd).reverse ++ [a] ≠ [] := by simp
    rw [joinLead, if_neg this, joinSlash_concat, joinLead, if_neg hS]
    simp
  rw [hlead]
  nth_rewrite 2 [hc]
  simp

/-! ### The identifiers of `generateWorktreeDetails` -/

/-- C1 (the code departs from it): for the name `../x`, with the default base
path `.claude-mux` resolved against `/repo`, the path produced is
`/repo/x-ab12cd`: absolute, but outside the resolved base path
`/repo/.claude-mux`. -/
theorem path_escapes_base_path :
    ∃ d, generateWorktreeDetails DefaultConfig sampleEnv "../x".toList = .ok d ∧
      d.Name = "../x-ab12cd".toList ∧
      d.Path = "/repo/x-ab12cd".toList ∧
      resolvedBase DefaultConfig "/repo".toList = "/repo/.claude-mux".toList ∧
      IsAbs d.Path = true ∧
      isUnder (resolvedBase DefaultConfig "/repo".toList) d.Path = false ∧
      Contains d.Path DefaultConfig.WorktreeBasePath = false :=
  ⟨_, generateWorktreeDetails_ok DefaultConfig newYear2024 (some (171, 18, 205))
      "main".toList "/repo".toList "../x".toList,
    by decide, by decide, by decide, by decide, by decide, by decide⟩

/-- C3, counterexample: with the zero suffix, on the same branch, base path
and second, the differing non-empty names `a/b` and `a-b` get the same
branch, and the differing non-empty names `./a` and `a` get the same path. -/
theorem zero_suffix_names_collide :
    (∃ d1 d2, generateWorktreeDetails DefaultConfig zeroEnv "a/b".toList = .ok d1 ∧
      generateWorktreeDetails DefaultConfig zeroEnv "a-b".toList = .ok d2 ∧
      "a/b".toList ≠ "a-b".toList ∧
      d1.Branch = "claude-mux-main-a-b-000000".toList ∧ d1.Branch = d2.Branch) ∧
    (∃ d1 d2, generateWorktreeDetails DefaultConfig zeroEnv "./a".toList = .ok d1 ∧
      generateWorktreeDetails DefaultConfig zeroEnv "a".toList = .ok d2 ∧
      "./a".toList ≠ "a".toList ∧
      d1.Path = "/repo/.claude-mux/a-000000".toList ∧ d1.Path = d2.Path) :=
  ⟨⟨_, _, generateWorktreeDetails_ok DefaultConfig newYear2024 none "main".toList "/repo".toList _,
      generateWorktreeDetails_ok DefaultConfig newYear2024 none "main".toList "/repo".toList _,
      by decide, by decide, by decide⟩,
   ⟨_, _, generateWorktreeDetails_ok DefaultConfig newYear2024 none "main".toList "/repo".toList _,
      generateWorktreeDetails_ok DefaultConfig newYear2024 none "main".toList "/repo".toList _,
      by decide, by decide, by decide⟩⟩

/-- C3, amended: with the zero suffix, for differing non-empty names, the
same current branch, base path, working directory and second, the two names
produced differ; the two branches are equal exactly when the names are equal
after `/` and space are replaced by `-`; and the two paths differ when
neither name contains `/`. -/
theorem zero_suffix_names_distinct (cfg : Config) (t : Time) (b cwd n1 n2 : Str)
    (h1 : n1 ≠ []) (h2 : n2 ≠ []) (hne : n1 ≠ n2) :
    ∃ d1 d2, generateWorktreeDetails cfg ⟨.ok b, t, none, .ok cwd⟩ n1 = .ok d1 ∧
      generateWorktreeDetails cfg ⟨.ok b, t, none, .ok cwd⟩ n2 = .ok d2 ∧
      d1.Name ≠ d2.Name ∧
      (d1.Branch = d2.Branch ↔
        ReplaceAll (ReplaceAll n1 '/' '-') ' ' '-' = ReplaceAll (ReplaceAll n2 '/' '-') ' ' '-') ∧
      ('/' ∉ n1 → '/' ∉ n2 → d1.Path ≠ d2.Path) := by
  refine ⟨_, _, generateWorktreeDetails_ok cfg t none b cwd n1,
    generateWorktreeDetails_ok cfg t none b cwd n2, ?_, ?_, ?_⟩
  · show sessionLabel t none n1 ≠ sessionLabel t none n2
    unfold sessionLabel
    rw [if_neg h1, if_neg h2]
    exact fun e => hne (List.append_cancel_right e)
  · show normalize (muxTag ++ b ++ '-' :: sessionLabel t none n1) =
        normalize (muxTag ++ b ++ '-' :: sessionLabel t none n2) ↔ normalize n1 = normalize n2
    have hsplit : ∀ n : Str, n ≠ [] → muxTag ++ b ++ '-' :: sessionLabel t none n =
        (muxTag ++ b ++ ['-']) ++ (n ++ '-' :: EncodeToString (randomBytes none)) := by
      intro n hn
      unfold sessionLabel
      rw [if_neg hn]
      simp
    rw [hsplit n1 h1, hsplit n2 h2]
    simp only [normalize_append]
    constructor
    · intro e
      exact List.append_cancel_right (List.append_cancel_left e)
    · intro e
      rw [e]
  · intro hs1 hs2 e
    have e1 : Join [resolvedBase cfg cwd, sessionLabel t none n1] =
        Join [resolvedBase cfg cwd, sessionLabel t none n2] := e
    have e2 := Join_ordinary_inj _ _ _ (Ordinary_sessionLabel t none n1 hs1)
      (Ordinary_sessionLabel t none n2 hs2) e1
    unfold sessionLabel at e2
    rw [if_neg h1, if_neg h2] at e2
    exact hne (List.append_cancel_right e2)

/-- The witness of C3 (amended): the names `a` and `b`. -/
theorem zero_suffix_names_distinct_witness :
    ∃ d1 d2, generateWorktreeDetails DefaultConfig
        ⟨.ok "main".toList, newYear2024, none, .ok "/repo".toList⟩ "a".toList = .ok d1 ∧
      generateWorktreeDetails DefaultConfig
        ⟨.ok "main".toList, newYear2024, none, .ok "/repo".toList⟩ "b".toList = .ok d2 ∧
      d1.Name ≠ d2.Name ∧
      (d1.Branch = d2.Branch ↔
        ReplaceAll (ReplaceAll "a".toList '/' '-') ' ' '-' =
          ReplaceAll (ReplaceAll "b".toList '/' '-') ' ' '-') ∧
      ('/' ∉ "a".toList → '/' ∉ "b".toList → d1.Path ≠ d2.Path) :=
  zero_suffix_names_distinct DefaultConfig newYear2024 "main".toList "/repo".toList
    "a".toList "b".toList (by decide) (by decide) (by decide)

/-- C4, counterexample: with the absolute base path `/tmp/wt` and the working
directory `/repo`, the path produced for the empty name is
`/tmp/wt/20240101-000000-000000`, which is not
`join(cwd, basePath, label) = /repo/tmp/wt/20240101-000000-000000`. -/
theorem absolute_base_path_not_joined_to_cwd :
    ∃ d, generateWorktreeDetails (configWithBase "/tmp/wt") zeroEnv [] = .ok d ∧
      d.Path = "/tmp/wt/20240101-000000-000000".toList ∧
      Join ["/repo".toList, (configWithBase "/tmp/wt").WorktreeBasePath,
          newYear2024.Format ++ "-".toList ++ EncodeToString [0, 0, 0]] =
        "/repo/tmp/wt/20240101-000000-000000".toList ∧
      d.Path ≠ Join ["/repo".toList, (configWithBase "/tmp/wt").WorktreeBasePath,
          newYear2024.Format ++ "-".toList ++ EncodeToString [0, 0, 0]] :=
  ⟨_, generateWorktreeDetails_ok (configWithBase "/tmp/wt") newYear2024 none
      "main".toList "/repo".toList [],
    by decide, by decide, by decide⟩

/-- C4, amended: with no name, for every current branch `b` free of `/` and
spaces, every time `t`, every three random bytes `r` and every absolute
working directory, the branch is `claude-mux-<b>-<YYYYMMDD-HHMMSS>-<hex r>`,
and the path is `join(cwd, basePath, <YYYYMMDD-HHMMSS>-<hex r>)` when the base
path is relative and `join(basePath, <YYYYMMDD-HHMMSS>-<hex r>)` when it is
absolute.  For the base path `.mux` and a working directory that is clean and
not `/`, the path is `<cwd>/.mux/<YYYYMMDD-HHMMSS>-<hex r>`. -/
theorem no_name_branch_and_path (cfg : Config) (t : Time) (r : Nat × Nat × Nat) (b cwd : Str)
    (hb1 : '/' ∉ b) (hb2 : ' ' ∉ b) (hcwd : IsAbs cwd = true) :
    ∃ d, generateWorktreeDetails cfg ⟨.ok b, t, some r, .ok cwd⟩ [] = .ok d ∧
      d.Branch = "claude-mux-".toList ++ b ++ "-".toList ++ t.Format ++ "-".toList ++
        EncodeToString [r.1, r.2.1, r.2.2] ∧
      d.Path =
        (if IsAbs cfg.WorktreeBasePath then
          Join [cfg.WorktreeBasePath, t.Format ++ "-".toList ++ EncodeToString [r.1, r.2.1, r.2.2]]
        else
          Join [cwd, cfg.WorktreeBasePath,
            t.Format ++ "-".toList ++ EncodeToString [r.1, r.2.1, r.2.2]]) ∧
      (cfg.WorktreeBasePath = ".mux".toList → Clean cwd = cwd → cwd ≠ "/".toList →
        d.Path = cwd ++ "/.mux/".toList ++ t.Format ++ "-".toList ++
          EncodeToString [r.1, r.2.1, r.2.2]) := by
  obtain ⟨r1, r2, r3⟩ := r
  have hlab : sessionLabel t (some (r1, r2, r3)) [] =
      t.Format ++ "-".toList ++ EncodeToString [r1, r2, r3] := by
    simp [sessionLabel, randomBytes]
  have hpath : Join [resolvedBase cfg cwd, sessionLabel t (some (r1, r2, r3)) []] =
      (if IsAbs cfg.WorktreeBasePath then
        Join [cfg.WorktreeBasePath, t.Format ++ "-".toList ++ EncodeToString [r1, r2, r3]]
      else
        Join [cwd, cfg.WorktreeBasePath,
          t.Format ++ "-".toList ++ EncodeToString [r1, r2, r3]]) := by
    rw [hlab]
    unfold resolvedBase
    by_cases ha : IsAbs cfg.WorktreeBasePath = true
    · rw [if_pos ha, if_pos ha]
    · rw [if_neg ha, if_neg ha, Join_Join_of_IsAbs _ _ _ hcwd]
  refine ⟨_, generateWorktreeDetails_ok cfg t (some (r1, r2, r3)) b cwd [], ?_, hpath, ?_⟩
  · show normalize (muxTag ++ b ++ '-' :: sessionLabel t (some (r1, r2, r3)) []) = _
    rw [hlab, normalize_of_not_mem]
    · simp [muxTag]
    · intro h
      simp only [List.mem_append, List.mem_cons] at h
      rcases h with (h | h) | h | (h | h) | h
      · exact absurd h (by decide)
      · exact hb1 h
      · exact absurd h (by decide)
      · exact not_mem_Format t '/' (by decide) h
      · exact absurd h (by decide)
      · exact slash_not_mem_EncodeToString _ h
    · intro h
      simp only [List.mem_append, List.mem_cons] at h
      rcases h with (h | h) | h | (h | h) | h
      · exact absurd h (by decide)
      · exact hb2 h
      · exact absurd h (by decide)
      · exact not_mem_Format t ' ' (by decide) h
      · exact absurd h (by decide)
      · exact space_not_mem_EncodeToString _ h
  · intro hbase hclean hroot
    show Join [resolvedBase cfg cwd, sessionLabel t (some (r1, r2, r3)) []] = _
    have hrel : ¬ IsAbs cfg.WorktreeBasePath = true := by rw [hbase]; decide
    rw [hpath, if_neg hrel, hbase, ← hlab,
      Join_of_clean_cwd cwd _ _ hcwd hclean hroot (by unfold Ordinary; decide)
        (Ordinary_sessionLabel t _ [] (by simp)), hlab]
    simp

/-- The witness of C4 (amended): base path `.mux`, branch `main`, midnight of
1 January 2024, bytes `00 00 00`, in `/home/user/repo`: the branch ends with
`-main-20240101-000000-000000` and the path is
`/home/user/repo/.mux/20240101-000000-000000`. -/
theorem no_name_branch_and_path_witness :
    ∃ d, generateWorktreeDetails (configWithBase ".mux")
        ⟨.ok "main".toList, newYear2024, some (0, 0, 0), .ok "/home/user/repo".toList⟩ [] = .ok d ∧
      d.Branch = "claude-mux-main-20240101-000000-000000".toList ∧
      HasSuffix d.Branch "-main-20240101-000000-000000".toList = true ∧
      d.Path = "/home/user/repo/.mux/20240101-000000-000000".toList := by
  obtain ⟨d, hd, hbr, -, hp⟩ := no_name_branch_and_path (configWithBase ".mux") newYear2024
    (0, 0, 0) "main".toList "/home/user/repo".toList (by decide) (by decide) (by decide)
  have hp1 := hp rfl (by decide) (by decide)
  refine ⟨d, hd, ?_, ?_, ?_⟩
  · rw [hbr]; decide
  · rw [hbr]; decide
  · rw [hp1]; decide

/-! ### `List` on a snapshot without manager-owned records -/

/-- C11: on every snapshot in which no record is manager-owned, the empty
snapshot included, `List` returns nil, prints `No active Claude worktrees
found.` and renders no record; its only request is the listing. -/
theorem List_nothing_owned {σ : Type} (m : Manager σ) (w w1 : σ) (wts : List Worktree)
    (hl : m.git.ListWorktrees w = (.ok wts, w1))
    (hno : ∀ wt ∈ wts, isOwned m.config.WorktreeBasePath wt = false) :
    (m.List w).result = none ∧
    (m.List w).trace = [.git .listWorktrees, .print .noActive] ∧
    renderedEntries (m.List w).trace = [] ∧
    (m.List w).world = w1 := by
  have hf : wts.filter (isOwned m.config.WorktreeBasePath) = [] := by
    rw [List.filter_eq_nil_iff]
    intro wt hwt
    rw [hno wt hwt]
    simp
  have hR : m.List w = ⟨none, w1, [.git .listWorktrees, .print .noActive]⟩ := by
    simp only [Manager.List, hl, listLoop_eq_filter, hf, List.nil_append, List.length_nil,
      if_true]
  rw [hR]
  exact ⟨rfl, rfl, rfl, rfl⟩

/-- The witness of C11: the snapshot holding the main worktree only. -/
theorem List_nothing_owned_witness :
    ((fixedManager [mainWorktree] (fun _ => false) (fun _ => false)).List ()).result = none ∧
    ((fixedManager [mainWorktree] (fun _ => false) (fun _ => false)).List ()).trace =
      [.git .listWorktrees, .print .noActive] :=
  ⟨(List_nothing_owned (fixedManager [mainWorktree] (fun _ => false) (fun _ => false)) () ()
      [mainWorktree] rfl (by decide)).1,
   (List_nothing_owned (fixedManager [mainWorktree] (fun _ => false) (fun _ => false)) () ()
      [mainWorktree] rfl (by decide)).2.1⟩

/-! ### `CreateAndLaunch` -/

theorem CreateAndLaunch_validate_failed {σ : Type} (m : Manager σ) (name : Str) (w : σ)
    (err : Err) (hv : (m.git.ValidateRepo w).1 = some err) :
    m.CreateAndLaunch name w =
      ⟨some (.wrapped "not in a git repository".toList err), (m.git.ValidateRepo w).2,
        [.git .validateRepo]⟩ := by
  unfold Manager.CreateAndLaunch
  simp only [hv]

theorem CreateAndLaunch_create_failed {σ : Type} (m : Manager σ) (name : Str) (w : σ)
    (details : WorktreeDetails) (err : Err)
    (hv : (m.git.ValidateRepo w).1 = none)
    (hg : generateWorktreeDetails m.config (genEnvOf m (m.git.ValidateRepo w).2) name =
      .ok details)
    (hc : (m.createWorktree details
      (m.git.CurrentBranch (m.git.ValidateRepo w).2).2).result = some err) :
    m.CreateAndLaunch name w =
      ⟨some (.wrapped "failed to create worktree".toList err),
        (m.createWorktree details (m.git.CurrentBranch (m.git.ValidateRepo w).2).2).world,
        [.git .validateRepo, .git .currentBranch, .print (.creating details.Name)] ++
          (m.createWorktree details (m.git.CurrentBranch (m.git.ValidateRepo w).2).2).trace⟩ := by
  unfold Manager.CreateAndLaunch
  unfold genEnvOf at hg
  simp only [hv, hg, hc]

theorem CreateAndLaunch_launch_failed {σ : Type} (m : Manager σ) (name : Str) (w : σ)
    (details : WorktreeDetails) (err : Err)
    (hv : (m.git.ValidateRepo w).1 = none)
    (hg : generateWorktreeDetails m.config (genEnvOf m (m.git.ValidateRepo w).2) name =
      .ok details)
    (hc : (m.createWorktree details
      (m.git.CurrentBranch (m.git.ValidateRepo w).2).2).result = none)
    (hl : (m.host.launchClaude m.config.ClaudeCommand details.Path
      (m.createWorktree details
        (m.git.CurrentBranch (m.git.ValidateRepo w).2).2).world).1 = some err) :
    m.CreateAndLaunch name w =
      if m.config.AutoCleanup then
        ⟨some (.wrapped "failed to launch Claude".toList err),
          (m.cleanup details (m.host.launchClaude m.config.ClaudeCommand details.Path
            (m.createWorktree details
              (m.git.CurrentBranch (m.git.ValidateRepo w).2).2).world).2).world,
          launchPrelude details
            (m.createWorktree details (m.git.CurrentBranch (m.git.ValidateRepo w).2).2).trace ++
          (m.cleanup details (m.host.launchClaude m.config.ClaudeCommand details.Path
            (m.createWorktree details
              (m.git.CurrentBranch (m.git.ValidateRepo w).2).2).world).2).trace⟩
      else
        ⟨some (.wrapped "failed to launch Claude".toList err),
          (m.host.launchClaude m.config.ClaudeCommand details.Path
            (m.createWorktree details
              (m.git.CurrentBranch (m.git.ValidateRepo w).2).2).world).2,
          launchPrelude details
            (m.createWorktree details
              (m.git.CurrentBranch (m.git.ValidateRepo w).2).2).trace⟩ := by
  unfold Manager.CreateAndLaunch
  unfold genEnvOf at hg
  simp only [hv, hg, hc, hl, launchPrelude]

theorem createWorktree_trace_cases {σ : Type} (m : Manager σ) (d : WorktreeDetails) (w : σ) :
    (m.createWorktree d w).trace = [.mkdirAll (Dir d.Path)] ∨
    (m.createWorktree d w).trace =
      [.mkdirAll (Dir d.Path), .git (.createWorktree d.Path d.Branch)] := by
  unfold Manager.createWorktree
  dsimp only
  split
  · exact Or.inl rfl
  · exact Or.inr rfl

theorem createWorktree_no_cleanup {σ : Type} (m : Manager σ) (d : WorktreeDetails) (w : σ) :
    launches (m.createWorktree d w).trace = [] ∧
    removedPaths (m.createWorktree d w).trace = [] ∧
    safeDeletedBranches (m.createWorktree d w).trace = [] ∧
    forceDeletedBranches (m.createWorktree d w).trace = [] := by
  rcases createWorktree_trace_cases m d w with h | h <;> rw [h] <;>
    exact ⟨rfl, rfl, rfl, rfl⟩

/-- C12: `CreateAndLaunch` fails fast.  When `ValidateRepo` fails it returns
that failure (wrapped) and its only event is the `ValidateRepo` request: no
other git request, no directory created, no session launched.  When the
creation of the worktree fails it returns that failure (wrapped), having
launched no session and issued no `removeWorktree` and no `deleteBranch`
request. -/
theorem CreateAndLaunch_fails_fast {σ : Type} (m : Manager σ) (name : Str) (w : σ) :
    (∀ err, (m.git.ValidateRepo w).1 = some err →
      (m.CreateAndLaunch name w).result =
        some (.wrapped "not in a git repository".toList err) ∧
      (m.CreateAndLaunch name w).trace = [.git .validateRepo] ∧
      requests (m.CreateAndLaunch name w).trace = [.validateRepo] ∧
      createdDirs (m.CreateAndLaunch name w).trace = [] ∧
      launches (m.CreateAndLaunch name w).trace = []) ∧
    (∀ details err, (m.git.ValidateRepo w).1 = none →
      generateWorktreeDetails m.config (genEnvOf m (m.git.ValidateRepo w).2) name =
        .ok details →
      (m.createWorktree details
        (m.git.CurrentBranch (m.git.ValidateRepo w).2).2).result = some err →
      (m.CreateAndLaunch name w).result =
        some (.wrapped "failed to create worktree".toList err) ∧
      launches (m.CreateAndLaunch name w).trace = [] ∧
      removedPaths (m.CreateAndLaunch name w).trace = [] ∧
      safeDeletedBranches (m.CreateAndLaunch name w).trace = [] ∧
      forceDeletedBranches (m.CreateAndLaunch name w).trace = []) := by
  constructor
  · intro err hv
    rw [CreateAndLaunch_validate_failed m name w err hv]
    exact ⟨rfl, rfl, rfl, rfl, rfl⟩
  · intro details err hv hg hc
    rw [CreateAndLaunch_create_failed m name w details err hv hg hc]
    obtain ⟨h1, h2, h3, h4⟩ := createWorktree_no_cleanup m details
      (m.git.CurrentBranch (m.git.ValidateRepo w).2).2
    refine ⟨rfl, ?_, ?_, ?_, ?_⟩
    · simp only [launches, List.filterMap_append] at h1 ⊢
      rw [h1]; rfl
    · simp only [removedPaths, List.filterMap_append] at h2 ⊢
      rw [h2]; rfl
    · simp only [safeDeletedBranches, List.filterMap_append] at h3 ⊢
      rw [h3]; rfl
    · simp only [forceDeletedBranches, List.filterMap_append] at h4 ⊢
      rw [h4]; rfl

/-- The witness of C12: a manager whose `ValidateRepo` fails, and a manager
whose `CreateWorktree` fails, both asked for the session `task`. -/
theorem CreateAndLaunch_fails_fast_witness :
    ((scriptedManager false (some exit128) none none false).CreateAndLaunch
      "task".toList ()).trace = [.git .validateRepo] ∧
    ((scriptedManager false none (some exit128) none false).CreateAndLaunch
      "task".toList ()).result = some (.wrapped "failed to create worktree".toList exit128) ∧
    launches ((scriptedManager false none (some exit128) none false).CreateAndLaunch
      "task".toList ()).trace = [] :=
  ⟨((CreateAndLaunch_fails_fast (scriptedManager false (some exit128) none none false)
      "task".toList ()).1 exit128 rfl).2.1,
   ((CreateAndLaunch_fails_fast (scriptedManager false none (some exit128) none false)
      "task".toList ()).2 taskDetails exit128 rfl rfl rfl).1,
   ((CreateAndLaunch_fails_fast (scriptedManager false none (some exit128) none false)
      "task".toList ()).2 taskDetails exit128 rfl rfl rfl).2.1⟩

theorem launchPrelude_no_cleanup {σ : Type} (m : Manager σ) (d : WorktreeDetails) (w : σ) :
    removedPaths (launchPrelude d (m.createWorktree d w).trace) = [] ∧
    safeDeletedBranches (launchPrelude d (m.createWorktree d w).trace) = [] ∧
    forceDeletedBranches (launchPrelude d (m.createWorktree d w).trace) = [] ∧
    launches (launchPrelude d (m.createWorktree d w).trace) = [d.Path] := by
  rcases createWorktree_trace_cases m d w with h | h <;> rw [h] <;>
    exact ⟨rfl, rfl, rfl, rfl⟩

/-- C13: when the session fails after the worktree was created,
`CreateAndLaunch` returns the session failure (wrapped) whether auto-cleanup
is on or off and whatever the git client answers afterwards.  With
auto-cleanup on, the events after the launch are those of `cleanup` on the
created descriptor: one `removeWorktree` of its path and one safe
`deleteBranch` of its branch.  With auto-cleanup off, no `removeWorktree` and
no `deleteBranch` request is issued. -/
theorem CreateAndLaunch_returns_session_failure {σ : Type} (m : Manager σ) (name : Str) (w : σ)
    (details : WorktreeDetails) (err : Err)
    (hv : (m.git.ValidateRepo w).1 = none)
    (hg : generateWorktreeDetails m.config (genEnvOf m (m.git.ValidateRepo w).2) name =
      .ok details)
    (hc : (m.createWorktree details
      (m.git.CurrentBranch (m.git.ValidateRepo w).2).2).result = none)
    (hl : (m.host.launchClaude m.config.ClaudeCommand details.Path
      (m.createWorktree details
        (m.git.CurrentBranch (m.git.ValidateRepo w).2).2).world).1 = some err) :
    (m.CreateAndLaunch name w).result = some (.wrapped "failed to launch Claude".toList err) ∧
    launches (m.CreateAndLaunch name w).trace = [details.Path] ∧
    (m.config.AutoCleanup = true →
      (m.CreateAndLaunch name w).trace =
        launchPrelude details
          (m.createWorktree details (m.git.CurrentBranch (m.git.ValidateRepo w).2).2).trace ++
        (m.cleanup details (m.host.launchClaude m.config.ClaudeCommand details.Path
          (m.createWorktree details
            (m.git.CurrentBranch (m.git.ValidateRepo w).2).2).world).2).trace ∧
      removedPaths (m.CreateAndLaunch name w).trace = [details.Path] ∧
      safeDeletedBranches (m.CreateAndLaunch name w).trace = [details.Branch]) ∧
    (m.config.AutoCleanup = false →
      removedPaths (m.CreateAndLaunch name w).trace = [] ∧
      safeDeletedBranches (m.CreateAndLaunch name w).trace = [] ∧
      forceDeletedBranches (m.CreateAndLaunch name w).trace = []) := by
  have hR := CreateAndLaunch_launch_failed m name w details err hv hg hc hl
  obtain ⟨p1, p2, p3, p4⟩ := launchPrelude_no_cleanup m details
    (m.git.CurrentBranch (m.git.ValidateRepo w).2).2
  have hcl : ∀ w2, launches (m.cleanup details w2).trace = [] := by
    intro w2
    rw [cleanup_trace]
    cases (m.git.RemoveWorktree details.Path w2).1 <;>
    cases (m.git.DeleteBranch details.Branch false (m.git.RemoveWorktree details.Path w2).2).1 <;>
      simp [launches]
  cases ha : m.config.AutoCleanup
  · rw [ha] at hR
    simp only [Bool.false_eq_true, if_false] at hR
    rw [hR]
    refine ⟨rfl, p4, ?_, ?_⟩
    · intro h; cases h
    · intro _; exact ⟨p1, p2, p3⟩
  · rw [ha] at hR
    simp only [if_true] at hR
    rw [hR]
    refine ⟨rfl, ?_, ?_, ?_⟩
    · have := hcl (m.host.launchClaude m.config.ClaudeCommand details.Path
        (m.createWorktree details (m.git.CurrentBranch (m.git.ValidateRepo w).2).2).world).2
      simp only [launches, List.filterMap_append] at p4 this ⊢
      rw [p4, this]; rfl
    · intro _
      refine ⟨rfl, ?_, ?_⟩
      · have := cleanup_removedPaths m details
          (m.host.launchClaude m.config.ClaudeCommand details.Path
            (m.createWorktree details (m.git.CurrentBranch (m.git.ValidateRepo w).2).2).world).2
        simp only [removedPaths, List.filterMap_append] at p1 this ⊢
        rw [p1, this]; rfl
      · have := cleanup_safeDeletedBranches m details
          (m.host.launchClaude m.config.ClaudeCommand details.Path
            (m.createWorktree details (m.git.CurrentBranch (m.git.ValidateRepo w).2).2).world).2
        simp only [safeDeletedBranches, List.filterMap_append] at p2 this ⊢
        rw [p2, this]; rfl
    · intro h; cases h

/-- The witness of C13: the session `task` fails to launch, with auto-cleanup
on and both branch deletes failing; the session failure is still what is
returned. -/
theorem CreateAndLaunch_returns_session_failure_witness :
    ((scriptedManager true none none (some exit128) true).CreateAndLaunch
      "task".toList ()).result = some (.wrapped "failed to launch Claude".toList exit128) ∧
    launches ((scriptedManager true none none (some exit128) true).CreateAndLaunch
      "task".toList ()).trace = ["/repo/.claude-mux/task-000000".toList] :=
  ⟨(CreateAndLaunch_returns_session_failure (scriptedManager true none none (some exit128) true)
      "task".toList () taskDetails exit128 rfl rfl rfl rfl).1,
   (CreateAndLaunch_returns_session_failure (scriptedManager true none none (some exit128) true)
      "task".toList () taskDetails exit128 rfl rfl rfl rfl).2.1⟩

/-! ### The removal hint -/

/-- For a name free of `/`, the path `generateWorktreeDetails` produces ends
with the session name, so the removal hint finds the worktree. -/
theorem hint_sound_of_no_slash (cfg : Config) (t : Time) (r : Option (Nat × Nat × Nat))
    (b cwd name : Str) (h : '/' ∉ name) :
    ∃ d, generateWorktreeDetails cfg ⟨.ok b, t, r, .ok cwd⟩ name = .ok d ∧
      HasSuffix d.Path d.Name = true := by
  refine ⟨_, generateWorktreeDetails_ok cfg t r b cwd name, ?_⟩
  show HasSuffix (Join [resolvedBase cfg cwd, sessionLabel t r name]) (sessionLabel t r name) = true
  rw [Join_ordinary _ _ (Ordinary_sessionLabel t r name h), HasSuffix_iff]
  exact List.suffix_append _ _

/-- C15 (the code departs from it): for the name `a//b` the descriptor has the
name `a//b-ab12cd`, the branch `claude-mux-main-a--b-ab12cd` and the path
`/repo/.claude-mux/a/b-ab12cd`; the branch does not contain the name and the
path does not end with it, so `Remove` with the hinted name, on the snapshot
holding the main worktree and the one just created, returns not-found.  The
descriptor for the name `../x` fails the match condition in the same way. -/
theorem removal_hint_misses_the_worktree :
    (∃ d, generateWorktreeDetails DefaultConfig sampleEnv "a//b".toList = .ok d ∧
      d.Name = "a//b-ab12cd".toList ∧
      d.Branch = "claude-mux-main-a--b-ab12cd".toList ∧
      d.Path = "/repo/.claude-mux/a/b-ab12cd".toList ∧
      Contains d.Branch d.Name = false ∧
      HasSuffix d.Path d.Name = false ∧
      ((fixedManager [mainWorktree, ⟨d.Path, d.Branch, "0123abc".toList, false⟩]
          (fun _ => false) (fun _ => false)).Remove d.Name false ()).result =
        some (.notFound d.Name)) ∧
    (∃ d, generateWorktreeDetails DefaultConfig sampleEnv "../x".toList = .ok d ∧
      Contains d.Branch d.Name = false ∧
      HasSuffix d.Path d.Name = false) :=
  ⟨⟨_, generateWorktreeDetails_ok DefaultConfig newYear2024 (some (171, 18, 205))
      "main".toList "/repo".toList "a//b".toList,
    by decide, by decide, by decide, by decide, by decide, by decide⟩,
   ⟨_, generateWorktreeDetails_ok DefaultConfig newYear2024 (some (171, 18, 205))
      "main".toList "/repo".toList "../x".toList,
    by decide, by decide⟩⟩

/-! ### The parser of the worktree list -/

theorem splitLines_ne_nil (s : Str) : splitLines s ≠ [] := by
  cases s with
  | nil => simp [splitLines]
  | cons c cs =>
    unfold splitLines
    split
    · simp
    · split <;> simp

theorem splitLines_append_newline (a b : Str) :
    splitLines (a ++ '\n' :: b) = splitLines a ++ splitLines b := by
  induction a with
  | nil => simp [splitLines]
  | cons c a ih =>
    by_cases hc : c = '\n'
    · simp [splitLines, hc, ih]
    · rcases hsp : splitLines a with _ | ⟨seg, rest⟩
      · exact absurd hsp (splitLines_ne_nil a)
      · simp [splitLines, hc, ih, hsp]

theorem splitLines_of_not_mem (s : Str) (h : '\n' ∉ s) : splitLines s = [s] := by
  induction s with
  | nil => rfl
  | cons c cs ih =>
    have hc : c ≠ '\n' := fun e => h (e ▸ List.mem_cons_self _ _)
    have hcs : '\n' ∉ cs := fun e => h (List.mem_cons_of_mem _ e)
    simp [splitLines, hc, ih hcs]

theorem joinLines_cons_cons (l l1 : Str) (ls : List Str) :
    joinLines (l :: l1 :: ls) = l ++ '\n' :: joinLines (l1 :: ls) := rfl

theorem splitLines_joinLines (ls : List Str) (hne : ls ≠ []) (h : ∀ l ∈ ls, '\n' ∉ l) :
    splitLines (joinLines ls) = ls := by
  induction ls with
  | nil => exact absurd rfl hne
  | cons x rest ih =>
    cases rest with
    | nil => exact splitLines_of_not_mem x (h x (List.mem_cons_self _ _))
    | cons y ys =>
      rw [joinLines_cons_cons, splitLines_append_newline,
        splitLines_of_not_mem x (h x (List.mem_cons_self _ _)),
        ih (by simp) fun z hz => h z (List.mem_cons_of_mem _ hz)]
      rfl

theorem SplitN2_fst (l : Str) : (SplitN2 l).1 = firstWord l := by
  induction l with
  | nil => rfl
  | cons c cs ih =>
    by_cases hc : c = ' '
    · simp [SplitN2, firstWord, hc]
    · simp only [SplitN2, if_neg hc, ih]
      simp [firstWord, hc]

theorem textAfter_nil_key (l : Str) :
    textAfter [] l = if (SplitN2 l).1 = [] then (SplitN2 l).2 else none := by
  cases l with
  | nil => rfl
  | cons c cs =>
    by_cases hc : c = ' '
    · subst hc
      simp [textAfter, HasPrefix, List.isPrefixOf, SplitN2]
    · have hc2 : (' ' == c) = false := by
        simp only [beq_eq_false_iff_ne, ne_eq]
        exact fun e => hc e.symm
      simp [textAfter, HasPrefix, List.isPrefixOf, SplitN2, hc, hc2]

theorem textAfter_cons_cons (k c : Char) (ks cs : Str) :
    textAfter (k :: ks) (c :: cs) = if k = c then textAfter ks cs else none := by
  by_cases h : k = c
  · subst h
    simp [textAfter, HasPrefix, List.isPrefixOf]
  · have h2 : (k == c) = false := by simpa using h
    simp [textAfter, HasPrefix, List.isPrefixOf, h, h2]

theorem textAfter_eq_SplitN2 (key : Str) (hkey : ' ' ∉ key) (l : Str) :
    textAfter key l = if (SplitN2 l).1 = key then (SplitN2 l).2 else none := by
  induction key generalizing l with
  | nil => exact textAfter_nil_key l
  | cons k ks ih =>
    have hk : k ≠ ' ' := fun e => hkey (e ▸ List.mem_cons_self _ _)
    have hks : ' ' ∉ ks := fun e => hkey (List.mem_cons_of_mem _ e)
    cases l with
    | nil => simp [textAfter, HasPrefix, List.isPrefixOf, SplitN2]
    | cons c cs =>
      rw [textAfter_cons_cons, ih hks]
      by_cases hc : c = ' '
      · subst hc
        simp [SplitN2, hk]
      · simp only [SplitN2, if_neg hc, List.cons.injEq]
        by_cases hkc : k = c
        · subst hkc
          simp
        · have : ¬ (c = k) := fun e => hkc e.symm
          simp [hkc, this]

theorem parseFields_Path (cur : Worktree) (l : Str) :
    (parseFields cur l).Path = (textAfter "worktree".toList l).getD cur.Path := by
  rw [textAfter_eq_SplitN2 _ (by decide)]
  unfold parseFields
  generalize SplitN2 l = parts
  obtain ⟨a, o⟩ := parts
  dsimp only
  by_cases h0 : a = "worktree".toList
  · simp only [if_pos h0]
    cases o <;> simp
  · by_cases h1 : a = "branch".toList
    · have hk : ¬ a = "worktree".toList := by rw [h1]; decide
      simp only [if_neg h0, if_pos h1, if_neg hk]
      cases o <;> simp
    · by_cases h2 : a = "HEAD".toList
      · have hk : ¬ a = "worktree".toList := by rw [h2]; decide
        simp only [if_neg h0, if_neg h1, if_pos h2, if_neg hk]
        cases o <;> simp
      · by_cases h3 : a = "locked".toList
        · have hk : ¬ a = "worktree".toList := by rw [h3]; decide
          simp only [if_neg h0, if_neg h1, if_neg h2, if_pos h3, if_neg hk]
          cases o <;> simp
        · simp only [if_neg h0, if_neg h1, if_neg h2, if_neg h3]
          simp

theorem parseFields_Commit (cur : Worktree) (l : Str) :
    (parseFields cur l).Commit = (textAfter "HEAD".toList l).getD cur.Commit := by
  rw [textAfter_eq_SplitN2 _ (by decide)]
  unfold parseFields
  generalize SplitN2 l = parts
  obtain ⟨a, o⟩ := parts
  dsimp only
  by_cases h0 : a = "worktree".toList
  · have hk : ¬ a = "HEAD".toList := by rw [h0]; decide
    simp only [if_pos h0, if_neg hk]
    cases o <;> simp
  · by_cases h1 : a = "branch".toList
    · have hk : ¬ a = "HEAD".toList := by rw [h1]; decide
      simp only [if_neg h0, if_pos h1, if_neg hk]
      cases o <;> simp
    · by_cases h2 : a = "HEAD".toList
      · simp only [if_neg h0, if_neg h1, if_pos h2]
        cases o <;> simp
      · by_cases h3 : a = "locked".toList
        · have hk : ¬ a = "HEAD".toList := by rw [h3]; decide
          simp only [if_neg h0, if_neg h1, if_neg h2, if_pos h3, if_neg hk]
          cases o <;> simp
        · simp only [if_neg h0, if_neg h1, if_neg h2, if_neg h3]
          simp

theorem parseFields_Branch (cur : Worktree) (l : Str) :
    (parseFields cur l).Branch =
      ((textAfter "branch".toList l).map fun rest => TrimPrefix rest "refs/heads/".toList).getD
        cur.Branch := by
  rw [textAfter_eq_SplitN2 _ (by decide)]
  unfold parseFields
  generalize SplitN2 l = parts
  obtain ⟨a, o⟩ := parts
  dsimp only
  by_cases h0 : a = "worktree".toList
  · have hk : ¬ a = "branch".toList := by rw [h0]; decide
    simp only [if_pos h0, if_neg hk]
    cases o <;> simp
  · by_cases h1 : a = "branch".toList
    · simp only [if_neg h0, if_pos h1]
      cases o <;> simp
    · by_cases h2 : a = "HEAD".toList
      · have hk : ¬ a = "branch".toList := by rw [h2]; decide
        simp only [if_neg h0, if_neg h1, if_pos h2, if_neg hk]
        cases o <;> simp
      · by_cases h3 : a = "locked".toList
        · have hk : ¬ a = "branch".toList := by rw [h3]; decide
          simp only [if_neg h0, if_neg h1, if_neg h2, if_pos h3, if_neg hk]
          cases o <;> simp
        · simp only [if_neg h0, if_neg h1, if_neg h2, if_neg h3]
          simp

theorem parseFields_Locked (cur : Worktree) (l : Str) :
    (parseFields cur l).Locked = (cur.Locked || decide (firstWord l = "locked".toList)) := by
  rw [← SplitN2_fst]
  unfold parseFields
  generalize SplitN2 l = parts
  obtain ⟨a, o⟩ := parts
  dsimp only
  by_cases h0 : a = "worktree".toList
  · have hk : ¬ a = "locked".toList := by rw [h0]; decide
    simp only [if_pos h0, decide_eq_false hk, Bool.or_false]
    cases o <;> rfl
  · by_cases h1 : a = "branch".toList
    · have hk : ¬ a = "locked".toList := by rw [h1]; decide
      simp only [if_neg h0, if_pos h1, decide_eq_false hk, Bool.or_false]
      cases o <;> rfl
    · by_cases h2 : a = "HEAD".toList
      · have hk : ¬ a = "locked".toList := by rw [h2]; decide
        simp only [if_neg h0, if_neg h1, if_pos h2, decide_eq_false hk, Bool.or_false]
        cases o <;> rfl
      · by_cases h3 : a = "locked".toList
        · simp only [if_neg h0, if_neg h1, if_neg h2, if_pos h3, decide_eq_true h3,
            Bool.or_true]
        · simp only [if_neg h0, if_neg h1, if_neg h2, if_neg h3, decide_eq_false h3,
            Bool.or_false]

theorem foldl_parseFields_field (f : Worktree → Str) (g : Str → Option Str)
    (hstep : ∀ cur l, f (parseFields cur l) = (g l).getD (f cur))
    (ls : List Str) (cur : Worktree) :
    f (ls.foldl parseFields cur) = ((ls.filterMap g).getLast?).getD (f cur) := by
  induction ls generalizing cur with
  | nil => rfl
  | cons l rest ih =>
    rw [List.foldl_cons, ih, hstep]
    cases hg : g l with
    | none => simp [List.filterMap_cons, hg]
    | some p =>
      simp only [List.filterMap_cons, hg, Option.getD_some, List.getLast?_cons]

theorem foldl_parseFields_Locked (ls : List Str) (cur : Worktree) :
    (ls.foldl parseFields cur).Locked =
      (cur.Locked || ls.any fun l => decide (firstWord l = "locked".toList)) := by
  induction ls generalizing cur with
  | nil => simp
  | cons l rest ih =>
    rw [List.foldl_cons, ih, parseFields_Locked, List.any_cons, Bool.or_assoc]

theorem TrimPrefix_nil (pre : Str) : TrimPrefix [] pre = [] := by
  unfold TrimPrefix
  split
  · exact List.drop_nil
  · rfl

theorem foldl_parseFields_empty (ls : List Str) :
    ls.foldl parseFields emptyWorktree = blockRecord ls := by
  have hP := foldl_parseFields_field Worktree.Path (textAfter "worktree".toList)
    parseFields_Path ls emptyWorktree
  have hC := foldl_parseFields_field Worktree.Commit (textAfter "HEAD".toList)
    parseFields_Commit ls emptyWorktree
  have hB := foldl_parseFields_field Worktree.Branch
    (fun l => (textAfter "branch".toList l).map fun rest => TrimPrefix rest "refs/heads/".toList)
    parseFields_Branch ls emptyWorktree
  have hL := foldl_parseFields_Locked ls emptyWorktree
  have hB2 : (ls.foldl parseFields emptyWorktree).Branch =
      TrimPrefix (lastTextAfter "branch".toList ls) "refs/heads/".toList := by
    rw [hB, ← List.map_filterMap, List.getLast?_map]
    unfold lastTextAfter
    cases (List.filterMap (textAfter "branch".toList) ls).getLast? with
    | none => simp [emptyWorktree, TrimPrefix_nil]
    | some p => simp
  generalize ls.foldl parseFields emptyWorktree = rec at hP hC hB2 hL
  obtain ⟨p, b, c, k⟩ := rec
  simp only at hP hC hB2 hL
  subst hP hC hB2 hL
  simp [blockRecord, lastTextAfter, emptyWorktree]

theorem TrimSpace_nil : TrimSpace [] = [] := rfl

theorem TrimSpace_getLast_not_space (s : Str) (c : Char)
    (h : (TrimSpace s).getLast? = some c) : isSpace c = false := by
  unfold TrimSpace at h
  rw [List.getLast?_reverse] at h
  have := List.head?_dropWhile_not isSpace (s.dropWhile isSpace).reverse
  rw [h] at this
  exact this

theorem textAfter_eq_some (key l p : Str) (h : textAfter key l = some p) :
    l = key ++ ' ' :: p := by
  unfold textAfter at h
  split at h
  · rename_i hpre
    rw [HasPrefix_iff] at hpre
    obtain ⟨t, ht⟩ := hpre
    have hp : p = t := by
      have h2 := Option.some.inj h
      rw [← h2, ← ht]
      have hlen : (key ++ [' ']).length = key.length + 1 := by simp
      rw [← hlen, List.drop_left]
    rw [hp, ← ht]
    simp
  · cases h

theorem textAfter_TrimSpace_ne_nil (key raw p : Str)
    (h : textAfter key (TrimSpace raw) = some p) : p ≠ [] := by
  intro hp
  subst hp
  have hl := textAfter_eq_some key _ _ h
  have hlast : (TrimSpace raw).getLast? = some ' ' := by
    rw [hl]
    exact List.getLast?_concat key
  have := TrimSpace_getLast_not_space raw ' ' hlast
  revert this
  decide

theorem blockRecord_Path_ne_nil (block : List Str)
    (h : ∃ l ∈ block, (textAfter "worktree".toList (TrimSpace l)).isSome = true) :
    (blockRecord (block.map TrimSpace)).Path ≠ [] := by
  obtain ⟨l, hl, hsome⟩ := h
  obtain ⟨p, hp⟩ := Option.isSome_iff_exists.1 hsome
  have hmem : p ∈ (block.map TrimSpace).filterMap (textAfter "worktree".toList) := by
    rw [List.mem_filterMap]
    exact ⟨TrimSpace l, List.mem_map_of_mem _ hl, hp⟩
  have hne : (block.map TrimSpace).filterMap (textAfter "worktree".toList) ≠ [] :=
    List.ne_nil_of_mem hmem
  show lastTextAfter "worktree".toList (block.map TrimSpace) ≠ []
  unfold lastTextAfter
  rw [List.getLast?_eq_getLast _ hne, Option.getD_some]
  have hlast := List.getLast_mem hne
  rw [List.mem_filterMap] at hlast
  obtain ⟨t, ht, hq⟩ := hlast
  obtain ⟨raw, -, hraw⟩ := List.mem_map.1 ht
  rw [← hraw] at hq
  exact textAfter_TrimSpace_ne_nil _ _ _ hq

theorem parseLine_of_not_blank (st : ParseState) (raw : Str) (h : TrimSpace raw ≠ []) :
    parseLine st raw =
      { worktrees := st.worktrees, current := parseFields st.current (TrimSpace raw) } := by
  unfold parseLine
  simp only [if_neg h]

theorem foldl_parseLine_block (block : List Str) (st : ParseState)
    (h : ∀ l ∈ block, TrimSpace l ≠ []) :
    block.foldl parseLine st =
      { worktrees := st.worktrees,
        current := (block.map TrimSpace).foldl parseFields st.current } := by
  induction block generalizing st with
  | nil => rfl
  | cons l rest ih =>
    rw [List.foldl_cons, parseLine_of_not_blank st l (h l (List.mem_cons_self _ _)),
      ih _ fun x hx => h x (List.mem_cons_of_mem _ hx)]
    rfl

theorem parseLine_empty_flush (ws : List Worktree) (cur : Worktree) (h : cur.Path ≠ []) :
    parseLine { worktrees := ws, current := cur } [] =
      { worktrees := ws ++ [cur], current := emptyWorktree } := by
  unfold parseLine
  simp only [TrimSpace_nil, if_true]
  rw [if_pos h]

theorem parseLine_empty_idle (ws : List Worktree) :
    parseLine { worktrees := ws, current := emptyWorktree } [] =
      { worktrees := ws, current := emptyWorktree } := by
  unfold parseLine
  simp [TrimSpace_nil, emptyWorktree]

theorem foldl_parseLine_empties_idle (n : Nat) (ws : List Worktree) :
    (List.replicate n ([] : Str)).foldl parseLine { worktrees := ws, current := emptyWorktree } =
      { worktrees := ws, current := emptyWorktree } := by
  induction n with
  | zero => rfl
  | succ k ih => rw [List.replicate_succ, List.foldl_cons, parseLine_empty_idle, ih]

theorem foldl_parseLine_block_then_empties (block : List Str) (n : Nat) (ws : List Worktree)
    (hnb : ∀ l ∈ block, TrimSpace l ≠ [])
    (hwt : ∃ l ∈ block, (textAfter "worktree".toList (TrimSpace l)).isSome = true) :
    (block ++ List.replicate (n + 1) ([] : Str)).foldl parseLine
        { worktrees := ws, current := emptyWorktree } =
      { worktrees := ws ++ [blockRecord (block.map TrimSpace)], current := emptyWorktree } := by
  rw [List.foldl_append, foldl_parseLine_block block _ hnb, foldl_parseFields_empty,
    List.replicate_succ, List.foldl_cons,
    parseLine_empty_flush _ _ (blockRecord_Path_ne_nil block hwt), foldl_parseLine_empties_idle]

theorem foldl_parseLine_blocks (blocks : List (List Str × Nat)) (ws : List Worktree)
    (hnb : ∀ b ∈ blocks, ∀ l ∈ b.1, TrimSpace l ≠ [])
    (hwt : ∀ b ∈ blocks, ∃ l ∈ b.1, (textAfter "worktree".toList (TrimSpace l)).isSome = true) :
    ((blocks.map fun b => b.1 ++ List.replicate (b.2 + 1) ([] : Str)).flatten).foldl parseLine
        { worktrees := ws, current := emptyWorktree } =
      { worktrees := ws ++ blocks.map fun b => blockRecord (b.1.map TrimSpace),
        current := emptyWorktree } := by
  induction blocks generalizing ws with
  | nil => simp
  | cons b rest ih =>
    rw [List.map_cons, List.flatten_cons, List.foldl_append,
      foldl_parseLine_block_then_empties b.1 b.2 ws (hnb b (List.mem_cons_self _ _))
        (hwt b (List.mem_cons_self _ _)),
      ih _ (fun x hx => hnb x (List.mem_cons_of_mem _ hx))
        (fun x hx => hwt x (List.mem_cons_of_mem _ hx))]
    simp

theorem parsePorcelain_lines (lines : List Str) (hne : lines ≠ [])
    (hnl : ∀ l ∈ lines, '\n' ∉ l) :
    parsePorcelain (joinLines lines) =
      if (lines.foldl parseLine { worktrees := [], current := emptyWorktree }).current.Path ≠ []
      then (lines.foldl parseLine { worktrees := [], current := emptyWorktree }).worktrees ++
        [(lines.foldl parseLine { worktrees := [], current := emptyWorktree }).current]
      else (lines.foldl parseLine { worktrees := [], current := emptyWorktree }).worktrees := by
  unfold parsePorcelain
  rw [splitLines_joinLines lines hne hnl]

/-- C14 (the code departs from it): for a worktree whose directory name ends
with a space, git prints the line `worktree /repo/wt ` and the text after
`worktree ` is `/repo/wt ` (with the space), but the record parsed has the
path `/repo/wt`, because the loop trims every line before it splits it. -/
theorem trailing_space_path_is_trimmed :
    joinLines (porcelainLines [] trailingSpaceBlock 2) =
      "worktree /repo/wt \nHEAD 0123abc\nbranch refs/heads/x\n\n".toList ∧
    parsePorcelain "worktree /repo/wt \nHEAD 0123abc\nbranch refs/heads/x\n\n".toList =
      [{ Path := "/repo/wt".toList, Branch := "x".toList, Commit := "0123abc".toList,
         Locked := false }] ∧
    textAfter "worktree".toList "worktree /repo/wt ".toList = some "/repo/wt ".toList ∧
    (blockRecord trailingSpaceBlock).Path = "/repo/wt ".toList ∧
    parsePorcelain "worktree /repo/wt \nHEAD 0123abc\nbranch refs/heads/x\n\n".toList ≠
      [blockRecord trailingSpaceBlock] := by
  refine ⟨by decide, by decide, by decide, by decide, by decide⟩

/-- What the parser returns in general: for every output made of blocks of
non-blank lines, each block containing a line that reads `worktree <path>`
once its surrounding white space is removed, the blocks separated by one or
more empty lines and the last block followed by any number of newlines (none
included), `ListWorktrees` returns one record per block, in order, read from
the lines of the block without their surrounding white space. -/
theorem ListWorktrees_one_record_per_block (blocks : List (List Str × Nat)) (final : List Str)
    (trailing : Nat)
    (hnl : ∀ b ∈ blocks.map Prod.fst ++ [final], ∀ l ∈ b, '\n' ∉ l)
    (hnb : ∀ b ∈ blocks.map Prod.fst ++ [final], ∀ l ∈ b, TrimSpace l ≠ [])
    (hwt : ∀ b ∈ blocks.map Prod.fst ++ [final],
      ∃ l ∈ b, (textAfter "worktree".toList (TrimSpace l)).isSome = true) :
    ListWorktrees (.ok (joinLines (porcelainLines blocks final trailing))) =
      .ok ((blocks.map Prod.fst ++ [final]).map fun b => blockRecord (b.map TrimSpace)) := by
  have hfin : final ∈ blocks.map Prod.fst ++ [final] := by simp
  have hblk : ∀ b ∈ blocks, b.1 ∈ blocks.map Prod.fst ++ [final] := by
    intro b hb
    exact List.mem_append_left _ (List.mem_map_of_mem _ hb)
  have hne : porcelainLines blocks final trailing ≠ [] := by
    obtain ⟨l, hl, -⟩ := hwt final hfin
    intro e
    have : l ∈ porcelainLines blocks final trailing := by
      unfold porcelainLines
      exact List.mem_append_left _ (List.mem_append_right _ hl)
    rw [e] at this
    cases this
  have hlines : ∀ l ∈ porcelainLines blocks final trailing, '\n' ∉ l := by
    intro l hl
    unfold porcelainLines at hl
    rcases List.mem_append.1 hl with hl | hl
    · rcases List.mem_append.1 hl with hl | hl
      · obtain ⟨seg, hseg, hlseg⟩ := List.mem_flatten.1 hl
        obtain ⟨b, hb, rfl⟩ := List.mem_map.1 hseg
        rcases List.mem_append.1 hlseg with h1 | h1
        · exact hnl b.1 (hblk b hb) l h1
        · rw [(List.mem_replicate.1 h1).2]; simp
      · exact hnl final hfin l hl
    · rw [(List.mem_replicate.1 hl).2]; simp
  have hrecs : (blocks.map Prod.fst ++ [final]).map (fun b => blockRecord (b.map TrimSpace)) =
      (blocks.map fun b => blockRecord (b.1.map TrimSpace)) ++
        [blockRecord (final.map TrimSpace)] := by
    simp
  have hpath := blockRecord_Path_ne_nil final (hwt final hfin)
  have hpre := foldl_parseLine_blocks blocks []
    (fun b hb => hnb b.1 (hblk b hb)) (fun b hb => hwt b.1 (hblk b hb))
  unfold ListWorktrees
  simp only
  rw [parsePorcelain_lines _ hne hlines, hrecs]
  unfold porcelainLines
  rw [List.append_assoc, List.foldl_append, hpre, List.nil_append]
  cases trailing with
  | zero =>
    rw [List.replicate_zero, List.append_nil, foldl_parseLine_block final _ (hnb final hfin),
      foldl_parseFields_empty]
    simp only
    rw [if_pos hpath]
  | succ n =>
    rw [foldl_parseLine_block_then_empties final n _ (hnb final hfin) (hwt final hfin)]
    simp [emptyWorktree]

/-- When no line has white space at its ends, the records are read from the
lines as they stand: `Path` is the text after `worktree `, `Branch` the text
after `branch ` without a leading `refs/heads/`, `Commit` the text after
`HEAD `, and `Locked` holds exactly when a line has the first word `locked`. -/
theorem ListWorktrees_of_trimmed_lines (blocks : List (List Str × Nat)) (final : List Str)
    (trailing : Nat)
    (hnl : ∀ b ∈ blocks.map Prod.fst ++ [final], ∀ l ∈ b, '\n' ∉ l)
    (hne : ∀ b ∈ blocks.map Prod.fst ++ [final], ∀ l ∈ b, l ≠ [])
    (htrim : ∀ b ∈ blocks.map Prod.fst ++ [final], ∀ l ∈ b, TrimSpace l = l)
    (hwt : ∀ b ∈ blocks.map Prod.fst ++ [final],
      ∃ l ∈ b, (textAfter "worktree".toList l).isSome = true) :
    ListWorktrees (.ok (joinLines (porcelainLines blocks final trailing))) =
      .ok ((blocks.map Prod.fst ++ [final]).map blockRecord) := by
  have hmap : ∀ b ∈ blocks.map Prod.fst ++ [final], b.map TrimSpace = b := by
    intro b hb
    have : b.map TrimSpace = b.map id :=
      List.map_congr_left fun l hl => htrim b hb l hl
    rw [this, List.map_id]
  rw [ListWorktrees_one_record_per_block blocks final trailing hnl
    (fun b hb l hl => by rw [htrim b hb l hl]; exact hne b hb l hl)
    (fun b hb => by
      obtain ⟨l, hl, h⟩ := hwt b hb
      exact ⟨l, hl, by rw [htrim b hb l hl]; exact h⟩)]
  congr 1
  exact List.map_congr_left fun b hb => by rw [hmap b hb]

/-- An instance of `ListWorktrees_one_record_per_block`: the output for the
main worktree and a locked worktree on a detached HEAD, as git prints it. -/
theorem ListWorktrees_one_record_per_block_witness :
    joinLines (porcelainLines [(mainBlock, 0)] lockedBlock 2) =
      ("worktree /repo\nHEAD 0123abc\nbranch refs/heads/main\n\n" ++
        "worktree /repo/.claude-mux/a-000000\nHEAD 4567def\ndetached\nlocked in use\n\n").toList ∧
    ListWorktrees (.ok (joinLines (porcelainLines [(mainBlock, 0)] lockedBlock 2))) =
      .ok (([(mainBlock, 0)].map Prod.fst ++ [lockedBlock]).map
        fun b => blockRecord (b.map TrimSpace)) ∧
    (([(mainBlock, 0)].map Prod.fst ++ [lockedBlock]).map fun b => blockRecord (b.map TrimSpace)) =
      [{ Path := "/repo".toList, Branch := "main".toList, Commit := "0123abc".toList,
         Locked := false },
       { Path := "/repo/.claude-mux/a-000000".toList, Branch := [], Commit := "4567def".toList,
         Locked := true }] :=
  ⟨by decide,
   ListWorktrees_one_record_per_block [(mainBlock, 0)] lockedBlock 2 (by decide) (by decide)
     (by decide),
   by decide⟩

end ClaudeMux
